import Mathlib

/-!
Verification of the procedural map generator core (`src/lib/map-generator.ts`).

Shallow embedding conventions:
* JavaScript numbers are idealized as exact arithmetic: integers as `ℤ`/`ℕ`,
  fractional values as `ℚ`, and values produced by transcendental functions
  (`Math.log`, `Math.cos`, ...) as `ℝ`.  `ℚ`/`ℝ` have no `NaN`, so the
  `Number.isNaN` branch of `clampFloat` is unreachable in the model.
* `Math.round` is rounding half toward `+∞` (`⌊x + 1/2⌋`), exactly JS semantics.
* `BigInt` is unbounded `ℕ` (the source hash only ever holds non-negative
  values); `Number(bigint)` is idealized as exact.
* `String.prototype.charCodeAt` is modelled by the character's code point
  (`Char.toNat`); the two agree on all strings without astral-plane characters.
* The `seedrandom` uniform PRNG is an external dependency (not part of this
  repository); it is modelled from the spec as a concrete deterministic
  stream of values in `[0,1)` derived from the seed.
* The `Uint16Array` coverage grid stores each cell modulo `2^16`.
-/

namespace MapGen

/-- `clampInt` from the source: clamp an integer to `[minVal, maxVal]`. -/
def clampInt (v minVal maxVal : ℤ) : ℤ :=
  if v < minVal then minVal
  else if maxVal < v then maxVal
  else v

/-- `clampFloat` from the source, generic over the number model (`ℚ` or `ℝ`);
the `Number.isNaN` branch has no counterpart since `ℚ`/`ℝ` have no `NaN`. -/
def clampFloat {α : Type} [LinearOrder α] (v minVal maxVal : α) : α :=
  if v < minVal then minVal
  else if maxVal < v then maxVal
  else v

/-- JS `Math.round`: round half toward positive infinity. -/
def jsRound {α : Type} [LinearOrderedField α] [FloorRing α] (x : α) : ℤ :=
  ⌊x + 1 / 2⌋

/-- JS truthiness fallback `a || b` for numeric `a` (`0` falls back to `b`). -/
def jsOr {α : Type} [Zero α] [DecidableEq α] (a b : α) : α :=
  if a = 0 then b else a

theorem clampInt_le {v lo hi : ℤ} (h : lo ≤ hi) : clampInt v lo hi ≤ hi := by
  unfold clampInt
  split <;> [exact h; skip]
  split <;> omega

theorem le_clampInt {v lo hi : ℤ} (h : lo ≤ hi) : lo ≤ clampInt v lo hi := by
  unfold clampInt
  split <;> [exact le_refl lo; skip]
  split <;> omega

/-! ### Seed derivation (`seedFromString`, source lines 911–923)

The source folds over the string with unbounded `BigInt` arithmetic
(`h ^= code; h *= prime`) and finally masks with `0x7fffffffffffffff`. -/

def fnvBasis : ℕ := 1469598103934665603

def fnvPrime : ℕ := 1099511628211

/-- One XOR-then-multiply step of the source hash, over unbounded `BigInt`. -/
def fnvStep (acc c : ℕ) : ℕ := (acc ^^^ c) * fnvPrime

/-- The hash of a non-empty seed string as the source computes it. -/
def seedHash (s : String) : ℕ :=
  ((s.data.map Char.toNat).foldl fnvStep fnvBasis) &&& (2 ^ 63 - 1)

/-- `seedFromString`: empty seed falls back to the current time (`Date.now()`),
which we pass in explicitly as `now`. -/
def seedFromString (s : String) (now : ℕ) : ℕ :=
  if s = "" then now else seedHash s

/-- Modelled from the spec: one step of the 64-bit FNV-1a-style hash
("basis offset 1469598103934665603, prime multiplier 1099511628211, one
XOR-then-multiply step per input character code point"), truncated to 64 bits
as a genuine 64-bit hash would be. -/
def fnv64Step (acc c : ℕ) : ℕ := ((acc ^^^ c) * fnvPrime) % 2 ^ 64

/-- Modelled from the spec: the 64-bit FNV-1a-style hash of a string. -/
def fnv64 (s : String) : ℕ :=
  (s.data.map Char.toNat).foldl fnv64Step fnvBasis

theorem xor_mod_two_pow (a c n : ℕ) :
    (a ^^^ c) % 2 ^ n = (a % 2 ^ n) ^^^ (c % 2 ^ n) := by
  apply Nat.eq_of_testBit_eq
  intro i
  simp only [Nat.testBit_mod_two_pow, Nat.testBit_xor]
  by_cases h : i < n <;> simp [h]

theorem foldl_fnvStep_mod (l : List ℕ) :
    ∀ a b : ℕ, a % 2 ^ 64 = b % 2 ^ 64 →
      (l.foldl fnvStep a) % 2 ^ 64 = (l.foldl fnv64Step b) % 2 ^ 64 := by
  induction l with
  | nil => intro a b h; simpa using h
  | cons c t ih =>
    intro a b h
    simp only [List.foldl_cons]
    apply ih
    show (a ^^^ c) * fnvPrime % 2 ^ 64 = ((b ^^^ c) * fnvPrime) % 2 ^ 64 % 2 ^ 64
    have hstep : (a ^^^ c) * fnvPrime % 2 ^ 64 = (b ^^^ c) * fnvPrime % 2 ^ 64 := by
      rw [Nat.mul_mod, xor_mod_two_pow, h, ← xor_mod_two_pow, ← Nat.mul_mod]
    rw [Nat.mod_mod_of_dvd _ dvd_rfl, hstep]

theorem seedHash_eq_fnv64_masked (s : String) :
    seedHash s = fnv64 s &&& (2 ^ 63 - 1) := by
  unfold seedHash fnv64
  rw [Nat.and_pow_two_sub_one_eq_mod, Nat.and_pow_two_sub_one_eq_mod]
  have h64 : (List.foldl fnvStep fnvBasis (s.data.map Char.toNat)) % 2 ^ 64 =
      (List.foldl fnv64Step fnvBasis (s.data.map Char.toNat)) % 2 ^ 64 :=
    foldl_fnvStep_mod _ _ _ rfl
  have hd : (2 : ℕ) ^ 63 ∣ 2 ^ 64 := pow_dvd_pow 2 (by norm_num)
  calc List.foldl fnvStep fnvBasis (s.data.map Char.toNat) % 2 ^ 63
      = List.foldl fnvStep fnvBasis (s.data.map Char.toNat) % 2 ^ 64 % 2 ^ 63 :=
        (Nat.mod_mod_of_dvd _ hd).symm
    _ = List.foldl fnv64Step fnvBasis (s.data.map Char.toNat) % 2 ^ 64 % 2 ^ 63 := by
        rw [h64]
    _ = List.foldl fnv64Step fnvBasis (s.data.map Char.toNat) % 2 ^ 63 :=
        Nat.mod_mod_of_dvd _ hd

/-- **C7**: for every non-empty seed string, `seedFromString` returns the 64-bit
FNV-1a-style hash of the string (basis offset 1469598103934665603, prime
multiplier 1099511628211, one XOR-then-multiply step per character code point)
masked to the low 63 bits, and the result is always non-negative (being a `ℕ`
below `2^63`, it is non-negative as a JS number). -/
theorem c7_seed_hash (s : String) (now : ℕ) (h : s ≠ "") :
    seedFromString s now = fnv64 s &&& (2 ^ 63 - 1) ∧
      seedFromString s now < 2 ^ 63 := by
  have hs : seedFromString s now = seedHash s := if_neg h
  constructor
  · rw [hs, seedHash_eq_fnv64_masked]
  · rw [hs]
    unfold seedHash
    rw [Nat.and_pow_two_sub_one_eq_mod]
    exact Nat.mod_lt _ (by norm_num)

theorem c7_seed_hash_witness :
    "demo" ≠ "" ∧
      (seedFromString "demo" 0 = fnv64 "demo" &&& (2 ^ 63 - 1) ∧
        seedFromString "demo" 0 < 2 ^ 63) :=
  ⟨by decide, c7_seed_hash "demo" 0 (by decide)⟩

/-! ### Ring boundary table (`Generator.initRingBands`, source lines 197–240)

`initRingBands` first clamps `ringStart`/`ringEnd` to `[0,1]` and auto-adjusts
one bound when `end ≤ start`; it then builds `max(1, rings) + 1` boundaries,
each clamped to `[prev, 1]`.  Note the source stores `this.ringEnd` *before*
the `span ≤ 0` repair, so the stored end is the pre-repair value. -/

/-- The clamp-and-auto-adjust prologue of `initRingBands` (source lines
198–206), returning the adjusted `(start, end)` pair. -/
def ringAdjust (rs re : ℚ) : ℚ × ℚ :=
  let s := clampFloat rs 0 1
  let e := clampFloat re 0 1
  if e ≤ s then
    if 1 ≤ e then (clampFloat (e - 1 / 10) 0 1, e)
    else (s, clampFloat (s + 1 / 10) 0 1)
  else (s, e)

/-- The boundary-filling loop of `initRingBands` (source lines 227–239): for
each index `i`, clamp the raw value into `[prev, 1]` and carry it forward. -/
def ringFill (f : ℕ → ℚ) : List ℕ → ℚ → List ℚ
  | [], _ => []
  | i :: rest, prev =>
    let val := clampFloat (f i) prev 1
    val :: ringFill f rest val

/-- `initRingBands`: returns the stored `(ringStart, ringEnd)` pair together
with the boundary table. -/
def initRingBands (rings : ℤ) (rs re : ℚ) : ℚ × ℚ × List ℚ :=
  let se := ringAdjust rs re
  let start := se.1
  let end0 := se.2
  let segments : ℤ := max 1 rings
  if segments = 1 then
    (start, end0, [0, max start (min 1 end0)])
  else
    let span0 := end0 - start
    let end1 := if span0 ≤ 0 then clampFloat (start + 1 / 10) start 1 else end0
    let span := if span0 ≤ 0 then 1 / 10 else span0
    let step := span / ((segments : ℚ) - 1)
    let raw : ℕ → ℚ := fun i =>
      if i = 1 then start
      else if (i : ℤ) = segments then end1
      else start + ((i : ℚ) - 1) * step
    (start, end0, 0 :: ringFill raw (List.range' 1 segments.toNat) 0)

theorem clampFloat_mem {α : Type} [LinearOrder α] {v lo hi : α} (h : lo ≤ hi) :
    lo ≤ clampFloat v lo hi ∧ clampFloat v lo hi ≤ hi := by
  unfold clampFloat
  split
  · exact ⟨le_refl _, h⟩
  · split
    · exact ⟨h, le_refl _⟩
    · exact ⟨le_of_not_lt (by assumption), le_of_not_lt (by assumption)⟩

theorem clampFloat_eq_self {α : Type} [LinearOrder α] {v lo hi : α}
    (h1 : lo ≤ v) (h2 : v ≤ hi) : clampFloat v lo hi = v := by
  unfold clampFloat
  rw [if_neg (not_lt.mpr h1), if_neg (not_lt.mpr h2)]

theorem clampFloat_eq_min {α : Type} [LinearOrder α] {v lo hi : α}
    (h : lo ≤ v) : clampFloat v lo hi = min v hi := by
  unfold clampFloat
  rw [if_neg (not_lt.mpr h)]
  rcases le_or_lt v hi with hle | hlt
  · rw [if_neg (not_lt.mpr hle), min_eq_left hle]
  · rw [if_pos hlt, min_eq_right (le_of_lt hlt)]

theorem ringAdjust_mem (rs re : ℚ) :
    (0 ≤ (ringAdjust rs re).1 ∧ (ringAdjust rs re).1 ≤ 1) ∧
      0 ≤ (ringAdjust rs re).2 ∧ (ringAdjust rs re).2 ≤ 1 := by
  have hs := @clampFloat_mem ℚ _ rs 0 1 (by norm_num)
  have he := @clampFloat_mem ℚ _ re 0 1 (by norm_num)
  simp only [ringAdjust]
  split_ifs
  · exact ⟨clampFloat_mem (by norm_num), he⟩
  · exact ⟨hs, clampFloat_mem (by norm_num)⟩
  · exact ⟨hs, he⟩

theorem ringFill_chain (f : ℕ → ℚ) :
    ∀ (idxs : List ℕ) (prev : ℚ), 0 ≤ prev → prev ≤ 1 →
      List.Chain' (· ≤ ·) (prev :: ringFill f idxs prev) ∧
        ∀ b ∈ ringFill f idxs prev, 0 ≤ b ∧ b ≤ 1 := by
  intro idxs
  induction idxs with
  | nil => intro prev _ _; exact ⟨List.chain'_singleton _, by simp [ringFill]⟩
  | cons i rest ih =>
    intro prev h0 h1
    have hv := @clampFloat_mem ℚ _ (f i) prev 1 h1
    have h0v : (0 : ℚ) ≤ clampFloat (f i) prev 1 := le_trans h0 hv.1
    obtain ⟨ihc, ihm⟩ := ih (clampFloat (f i) prev 1) h0v hv.2
    refine ⟨?_, ?_⟩
    · exact (List.chain'_cons).mpr ⟨hv.1, ihc⟩
    · intro b hb
      rcases List.mem_cons.mp hb with hb | hb
      · exact hb ▸ ⟨h0v, hv.2⟩
      · exact ihm b hb

theorem ringFill_length (f : ℕ → ℚ) :
    ∀ (idxs : List ℕ) (prev : ℚ), (ringFill f idxs prev).length = idxs.length := by
  intro idxs
  induction idxs with
  | nil => intro prev; rfl
  | cons i rest ih => intro prev; simp [ringFill, ih]

/-- **C5**: for every `rings`/`ringStart`/`ringEnd` input, the ring boundary
table built by `initRingBands` is monotonically non-decreasing, every value
lies in `[0,1]`, and its length equals `max(1, rings) + 1` — including when the
auto-adjustment path for `ringEnd ≤ ringStart` is taken (the table is built
from the `ringAdjust` output, so the adjustment path is covered). -/
theorem c5_ring_band_table (rings : ℤ) (rs re : ℚ) :
    List.Chain' (· ≤ ·) (initRingBands rings rs re).2.2 ∧
      (∀ b ∈ (initRingBands rings rs re).2.2, 0 ≤ b ∧ b ≤ 1) ∧
      (initRingBands rings rs re).2.2.length = (max 1 rings).toNat + 1 := by
  obtain ⟨⟨hs0, hs1⟩, he0, he1⟩ := ringAdjust_mem rs re
  simp only [initRingBands]
  rcases eq_or_ne (max 1 rings : ℤ) 1 with hseg | hseg
  · simp only [if_pos hseg]
    refine ⟨?_, ?_, by simp [hseg]⟩
    · exact (List.chain'_cons).mpr
        ⟨le_trans hs0 le_sup_left, List.chain'_singleton _⟩
    · intro b hb
      rcases List.mem_cons.mp hb with hb | hb
      · subst hb; exact ⟨le_refl 0, by norm_num⟩
      · rcases List.mem_cons.mp hb with hb | hb
        · subst hb
          exact ⟨le_trans hs0 le_sup_left, sup_le hs1 inf_le_left⟩
        · simp at hb
  · simp only [if_neg hseg]
    obtain ⟨hc, hm⟩ :=
      ringFill_chain _ (List.range' 1 (max 1 rings).toNat) 0 (le_refl 0) (by norm_num)
    refine ⟨hc, ?_, ?_⟩
    · intro b hb
      rcases List.mem_cons.mp hb with hb | hb
      · subst hb; exact ⟨le_refl 0, by norm_num⟩
      · exact hm b hb
    · simp [ringFill_length, List.length_range']

theorem c5_ring_band_table_witness :
    List.Chain' (· ≤ ·) (initRingBands 10 (1/10) (8/10)).2.2 ∧
      (∀ b ∈ (initRingBands 10 (1/10) (8/10)).2.2, 0 ≤ b ∧ b ≤ 1) ∧
      (initRingBands 10 (1/10) (8/10)).2.2.length = (max 1 10 : ℤ).toNat + 1 :=
  c5_ring_band_table 10 (1/10) (8/10)

/-- **C6 counterexample**: with `ringStart = ringEnd = 1/2` (so `end ≤ start`
after clamping and the end is below 1), the claim predicts the *start* grows
and the end is untouched; the code instead leaves the start unchanged and
raises the *end* to `start + 0.1 = 3/5`. -/
theorem c6_counterexample :
    (ringAdjust (1/2) (1/2)).1 = 1/2 ∧ (ringAdjust (1/2) (1/2)).2 = 3/5 ∧
      (ringAdjust (1/2) (1/2)).2 ≠ 1/2 := by
  norm_num [ringAdjust, clampFloat]

/-- **C6 (amended)**: in `initRingBands`, when `ringEnd ≤ ringStart` after
clamping both to `[0,1]`, exactly one bound is adjusted by 0.1: if the end is
already ≥ 1 the *start* is lowered to `end − 0.1` (end unchanged); otherwise
the *end* is raised to `start + 0.1`, clamped to 1 (start unchanged). -/
theorem c6_ring_auto_adjust (rs re : ℚ)
    (h : clampFloat re 0 1 ≤ clampFloat rs 0 1) :
    (1 ≤ clampFloat re 0 1 →
      ringAdjust rs re = (clampFloat re 0 1 - 1/10, clampFloat re 0 1)) ∧
    (clampFloat re 0 1 < 1 →
      ringAdjust rs re =
        (clampFloat rs 0 1, min (clampFloat rs 0 1 + 1/10) 1)) := by
  have hs := @clampFloat_mem ℚ _ rs 0 1 (by norm_num)
  have he := @clampFloat_mem ℚ _ re 0 1 (by norm_num)
  constructor
  · intro h1
    have he1 : clampFloat re 0 1 = 1 := le_antisymm he.2 h1
    simp only [ringAdjust, if_pos h, if_pos h1]
    rw [clampFloat_eq_self (by rw [he1]; norm_num) (by linarith [he.2])]
  · intro h1
    simp only [ringAdjust, if_pos h, if_neg (not_le.mpr h1)]
    rw [@clampFloat_eq_min ℚ _ (clampFloat rs 0 1 + 1/10) 0 1 (by linarith [hs.1])]

theorem c6_ring_auto_adjust_witness :
    clampFloat (1/5 : ℚ) 0 1 ≤ clampFloat (3/10 : ℚ) 0 1 ∧
      ((1 ≤ clampFloat (1/5 : ℚ) 0 1 →
        ringAdjust (3/10) (1/5) =
          (clampFloat (1/5 : ℚ) 0 1 - 1/10, clampFloat (1/5 : ℚ) 0 1)) ∧
      (clampFloat (1/5 : ℚ) 0 1 < 1 →
        ringAdjust (3/10) (1/5) =
          (clampFloat (3/10 : ℚ) 0 1, min (clampFloat (3/10 : ℚ) 0 1 + 1/10) 1))) :=
  ⟨by norm_num [clampFloat], c6_ring_auto_adjust (3/10) (1/5) (by norm_num [clampFloat])⟩

/-! ### Tile batch normalizer (`finalizeTileBatches`, source lines 802–866)

Counts are JS numbers, idealized as `ℚ`.  The JS `Array.prototype.sort`
comparator `(a, b) => a.frac === b.frac ? a.index - b.index : …` is a total
order (indices are distinct), so the sorted order is unique and we model it
with `List.mergeSort`.  `Array.prototype.slice(0, n)` truncates a fractional
`n` toward zero (`ToIntegerOrInfinity`), modelled by `sliceLen`. -/

structure TileSpec where
  w : ℤ
  h : ℤ
  count : ℚ
deriving DecidableEq

structure TileBatch where
  w : ℤ
  h : ℤ
  count : ℤ
deriving DecidableEq

/-- An entry of the source's `fractions` array: original index and
fractional remainder. -/
structure FracEntry where
  index : ℕ
  frac : ℚ
deriving DecidableEq

/-- The proportional scaling factor (`scale`, source lines 809–812). -/
def tileScale (specs : List TileSpec) (capLimit : ℚ) : ℚ :=
  let sumCounts := (specs.map TileSpec.count).sum
  if 0 < capLimit ∧ capLimit < sumCounts then capLimit / sumCounts else 1

/-- The `scaledTotals` array (entries skipped by `adjusted <= 0` stay 0). -/
def scaledTotals (specs : List TileSpec) (capLimit : ℚ) : List ℚ :=
  specs.map fun s =>
    let adjusted := s.count * tileScale specs capLimit
    if adjusted ≤ 0 then 0 else adjusted

/-- The `floors` array before remainder adjustment. -/
def floorsInit (specs : List TileSpec) (capLimit : ℚ) : List ℤ :=
  specs.map fun s =>
    let adjusted := s.count * tileScale specs capLimit
    if adjusted ≤ 0 then 0 else ⌊adjusted⌋

/-- The `fractions` array: index/remainder pairs for entries with a positive
adjusted count and a positive remainder. -/
def fracEntries (specs : List TileSpec) (capLimit : ℚ) : List FracEntry :=
  specs.enum.filterMap fun p =>
    let adjusted := p.2.count * tileScale specs capLimit
    if 0 < adjusted ∧ 0 < adjusted - ⌊adjusted⌋ then
      some ⟨p.1, adjusted - ⌊adjusted⌋⟩
    else none

/-- `targetTotal` (source lines 832–835); it can be fractional when the cap
is fractional, hence `ℚ`. -/
def targetTotal (specs : List TileSpec) (capLimit : ℚ) : ℚ :=
  let t0 : ℤ := jsRound (scaledTotals specs capLimit).sum
  if 0 < capLimit then
    if tileScale specs capLimit < 1 then capLimit else min capLimit (t0 : ℚ)
  else (t0 : ℚ)

/-- Ascending sort comparator used by the removal branch. -/
def fracLeAsc (a b : FracEntry) : Bool :=
  decide (a.frac < b.frac ∨ (a.frac = b.frac ∧ a.index ≤ b.index))

/-- Descending sort comparator used by the addition branch. -/
def fracLeDesc (a b : FracEntry) : Bool :=
  decide (b.frac < a.frac ∨ (a.frac = b.frac ∧ a.index ≤ b.index))

/-- JS `Array.prototype.slice(0, q)` length for the non-negative `q` arising
here: `ToIntegerOrInfinity` truncates toward zero. -/
def sliceLen (q : ℚ) : ℕ := ⌊q⌋.toNat

/-- The removal branch's per-entry decrement (guarded by `floors[i] > 0`). -/
def applyDec (floors : List ℤ) (entries : List FracEntry) : List ℤ :=
  entries.foldl
    (fun fl e => if 0 < fl.getD e.index 0 then fl.set e.index (fl.getD e.index 0 - 1) else fl)
    floors

/-- The addition branch's per-entry increment. -/
def applyInc (floors : List ℤ) (entries : List FracEntry) : List ℤ :=
  entries.foldl (fun fl e => fl.set e.index (fl.getD e.index 0 + 1)) floors

/-- The `floors` array after both largest-remainder adjustment branches
(source lines 837–857).  Note the source re-assigns `totalFloors = targetTotal`
after the removal branch even if fewer units could be removed. -/
def adjustedFloors (specs : List TileSpec) (capLimit : ℚ) : List ℤ :=
  let floors0 := floorsInit specs capLimit
  let target := targetTotal specs capLimit
  let fracs := fracEntries specs capLimit
  let removed :=
    if target < (floors0.sum : ℚ) then
      (applyDec floors0
        ((fracs.mergeSort fracLeAsc).take (sliceLen ((floors0.sum : ℚ) - target))),
        target)
    else (floors0, (floors0.sum : ℚ))
  if removed.2 < target then
    applyInc removed.1
      ((fracs.mergeSort fracLeDesc).take (sliceLen (target - removed.2)))
  else removed.1

/-- `finalizeTileBatches`: empty-sum early return, then the adjusted floors,
dropping entries with a non-positive final count. -/
def finalizeTileBatches (specs : List TileSpec) (capLimit : ℚ) : List TileBatch :=
  if (specs.map TileSpec.count).sum = 0 then []
  else
    (specs.zip (adjustedFloors specs capLimit)).filterMap fun p =>
      if p.2 ≤ 0 then none else some ⟨p.1.w, p.1.h, p.2⟩

/-! #### Generic list lemmas for the largest-remainder argument -/

theorem sum_map_floor_le (l : List ℚ) :
    (((l.map fun x => ⌊x⌋).sum : ℤ) : ℚ) ≤ l.sum := by
  induction l with
  | nil => simp
  | cons x t ih =>
    simp only [List.map_cons, List.sum_cons]
    push_cast
    push_cast at ih
    linarith [Int.floor_le x]

theorem sum_map_frac_le_countP (l : List ℚ) :
    (l.map fun x : ℚ => x - (⌊x⌋ : ℚ)).sum ≤
      ((l.countP fun x : ℚ => decide ((0 : ℚ) < x - (⌊x⌋ : ℚ))) : ℚ) := by
  induction l with
  | nil => simp
  | cons x t ih =>
    simp only [List.map_cons, List.sum_cons, List.countP_cons]
    by_cases h : (0 : ℚ) < x - (⌊x⌋ : ℚ)
    · have hlt : x - (⌊x⌋ : ℚ) < 1 := by linarith [Int.lt_floor_add_one x]
      simp only [decide_eq_true_eq, h, if_true]
      push_cast
      linarith
    · have h0 : x - (⌊x⌋ : ℚ) = 0 :=
        le_antisymm (not_lt.mp h) (by linarith [Int.floor_le x])
      simp only [decide_eq_true_eq, h, if_false]
      rw [h0]
      simpa using ih

theorem length_filterMap_ite {α β : Type} (P : α → Prop) [DecidablePred P]
    (g : α → β) (l : List α) :
    (l.filterMap fun x => if P x then some (g x) else none).length =
      l.countP fun x => decide (P x) := by
  induction l with
  | nil => rfl
  | cons x t ih =>
    simp only [List.filterMap_cons, List.countP_cons]
    by_cases h : P x
    · simp [h, ih]
    · simp [h, ih]

theorem countP_congr' {α : Type} {p q : α → Bool} :
    ∀ l : List α, (∀ a ∈ l, p a = q a) → l.countP p = l.countP q := by
  intro l
  induction l with
  | nil => intro _; rfl
  | cons x t ih =>
    intro h
    simp only [List.countP_cons, h x (List.mem_cons_self x t),
      ih fun a ha => h a (List.mem_cons_of_mem _ ha)]

theorem length_applyInc (entries : List FracEntry) :
    ∀ floors : List ℤ, (applyInc floors entries).length = floors.length := by
  induction entries with
  | nil => intro floors; rfl
  | cons e t ih =>
    intro floors
    show (applyInc (floors.set e.index (floors.getD e.index 0 + 1)) t).length = _
    rw [ih, List.length_set]

theorem sum_applyInc (entries : List FracEntry) :
    ∀ floors : List ℤ, (∀ e ∈ entries, e.index < floors.length) →
      (applyInc floors entries).sum = floors.sum + entries.length := by
  induction entries with
  | nil => intro floors _; simp [applyInc]
  | cons e t ih =>
    intro floors hv
    have he : e.index < floors.length := hv e (List.mem_cons_self e t)
    show (applyInc (floors.set e.index (floors.getD e.index 0 + 1)) t).sum = _
    rw [ih _ fun e' he' => by
      rw [List.length_set]; exact hv e' (List.mem_cons_of_mem _ he')]
    rw [List.sum_set']
    rw [dif_pos he, List.getD_eq_getElem?_getD, List.getElem?_eq_getElem he]
    simp only [Option.getD_some, List.length_cons]
    push_cast
    ring

theorem applyInc_getD (entries : List FracEntry) :
    ∀ floors : List ℤ, (entries.map FracEntry.index).Nodup →
      (∀ e ∈ entries, e.index < floors.length) → ∀ j : ℕ,
      (applyInc floors entries).getD j 0 =
        floors.getD j 0 +
          (if j ∈ entries.map FracEntry.index then 1 else 0) := by
  induction entries with
  | nil => intro floors _ _ j; simp [applyInc]
  | cons e t ih =>
    intro floors hnd hv j
    have he : e.index < floors.length := hv e (List.mem_cons_self e t)
    simp only [List.map_cons, List.nodup_cons] at hnd
    show (applyInc (floors.set e.index (floors.getD e.index 0 + 1)) t).getD j 0 = _
    rw [ih _ hnd.2 fun e' he' => by
      rw [List.length_set]; exact hv e' (List.mem_cons_of_mem _ he')]
    simp only [List.map_cons]
    by_cases hj : j = e.index
    · subst hj
      rw [if_neg hnd.1, if_pos (List.mem_cons_self _ _)]
      rw [List.getD_eq_getElem?_getD, List.getElem?_set_self he,
        List.getD_eq_getElem?_getD]
      simp
    · have hset : (floors.set e.index (floors.getD e.index 0 + 1)).getD j 0 =
          floors.getD j 0 := by
        rw [List.getD_eq_getElem?_getD, List.getElem?_set_ne (fun h => hj h.symm),
          List.getD_eq_getElem?_getD]
      rw [hset]
      by_cases hmem : j ∈ t.map FracEntry.index
      · rw [if_pos hmem, if_pos (List.mem_cons_of_mem _ hmem)]
      · rw [if_neg hmem, if_neg (by
          intro hc
          rcases List.mem_cons.mp hc with hc | hc
          · exact hj hc
          · exact hmem hc)]

theorem applyInc_nonneg (entries : List FracEntry) :
    ∀ floors : List ℤ, (∀ x ∈ floors, 0 ≤ x) →
      ∀ x ∈ applyInc floors entries, 0 ≤ x := by
  induction entries with
  | nil => intro floors h; exact h
  | cons e t ih =>
    intro floors h
    show ∀ x ∈ applyInc (floors.set e.index (floors.getD e.index 0 + 1)) t, 0 ≤ x
    apply ih
    intro x hx
    rcases List.mem_or_eq_of_mem_set hx with hx | hx
    · exact h x hx
    · subst hx
      have hg : 0 ≤ floors.getD e.index 0 := by
        rw [List.getD_eq_getElem?_getD]
        cases hq : floors[e.index]? with
        | none => simp
        | some v =>
          simpa using h v (List.getElem?_mem hq)
      omega

theorem sum_map_sub_floor (l : List ℚ) :
    (l.map fun x : ℚ => x - (⌊x⌋ : ℚ)).sum =
      l.sum - (((l.map fun x => ⌊x⌋).sum : ℤ) : ℚ) := by
  induction l with
  | nil => simp
  | cons x t ih =>
    simp only [List.map_cons, List.sum_cons]
    push_cast
    push_cast at ih
    linarith

theorem tileScale_pos (specs : List TileSpec) (capq : ℚ) :
    0 < tileScale specs capq := by
  simp only [tileScale]
  split_ifs with h
  · exact div_pos h.1 (lt_trans h.1 h.2)
  · norm_num

theorem scaledTotals_eq (specs : List TileSpec) (capq : ℚ)
    (hpos : ∀ s ∈ specs, 0 < s.count) :
    scaledTotals specs capq =
      specs.map fun s => s.count * tileScale specs capq := by
  apply List.map_congr_left
  intro s hs
  have : 0 < s.count * tileScale specs capq :=
    mul_pos (hpos s hs) (tileScale_pos specs capq)
  simp only [if_neg (not_le.mpr this)]

theorem floorsInit_eq (specs : List TileSpec) (capq : ℚ)
    (hpos : ∀ s ∈ specs, 0 < s.count) :
    floorsInit specs capq =
      specs.map fun s => ⌊s.count * tileScale specs capq⌋ := by
  apply List.map_congr_left
  intro s hs
  have : 0 < s.count * tileScale specs capq :=
    mul_pos (hpos s hs) (tileScale_pos specs capq)
  simp only [if_neg (not_le.mpr this)]

theorem scaledTotals_sum (specs : List TileSpec) (capq : ℚ)
    (hpos : ∀ s ∈ specs, 0 < s.count) :
    (scaledTotals specs capq).sum =
      (specs.map TileSpec.count).sum * tileScale specs capq := by
  rw [scaledTotals_eq specs capq hpos]
  exact List.sum_map_mul_right specs TileSpec.count (tileScale specs capq)

theorem fracEntries_length (specs : List TileSpec) (capq : ℚ)
    (hpos : ∀ s ∈ specs, 0 < s.count) :
    ((fracEntries specs capq).length : ℚ) =
      (((specs.map fun s => s.count * tileScale specs capq).countP
        fun x : ℚ => decide ((0 : ℚ) < x - (⌊x⌋ : ℚ))) : ℚ) := by
  unfold fracEntries
  rw [length_filterMap_ite
    (fun p : ℕ × TileSpec =>
      0 < p.2.count * tileScale specs capq ∧
        0 < p.2.count * tileScale specs capq -
          (⌊p.2.count * tileScale specs capq⌋ : ℚ))
    (fun p : ℕ × TileSpec =>
      (⟨p.1, p.2.count * tileScale specs capq -
        (⌊p.2.count * tileScale specs capq⌋ : ℚ)⟩ : FracEntry))]
  congr 1
  have h1 : (specs.enum.countP fun p : ℕ × TileSpec =>
      decide (0 < p.2.count * tileScale specs capq ∧
        0 < p.2.count * tileScale specs capq -
          (⌊p.2.count * tileScale specs capq⌋ : ℚ))) =
      specs.countP fun s : TileSpec =>
        decide (0 < s.count * tileScale specs capq ∧
          0 < s.count * tileScale specs capq -
            (⌊s.count * tileScale specs capq⌋ : ℚ)) := by
    rw [show specs = specs.enum.map Prod.snd from (List.enum_map_snd specs).symm,
      List.countP_map]
    simp only [List.enum_map_snd]
    rfl
  rw [h1, List.countP_map]
  apply countP_congr'
  intro s hs
  have : 0 < s.count * tileScale specs capq :=
    mul_pos (hpos s hs) (tileScale_pos specs capq)
  simp [Function.comp, this]

theorem mem_fracEntries {specs : List TileSpec} {capq : ℚ} {e : FracEntry} :
    e ∈ fracEntries specs capq ↔
      ∃ s : TileSpec, specs[e.index]? = some s ∧
        (0 < s.count * tileScale specs capq ∧
          0 < s.count * tileScale specs capq -
            (⌊s.count * tileScale specs capq⌋ : ℚ)) ∧
        e.frac = s.count * tileScale specs capq -
          (⌊s.count * tileScale specs capq⌋ : ℚ) := by
  unfold fracEntries
  rw [List.mem_filterMap]
  constructor
  · rintro ⟨p, hp, hsome⟩
    dsimp only at hsome
    split_ifs at hsome with hcond
    · have he : (⟨p.1, p.2.count * tileScale specs capq -
          (⌊p.2.count * tileScale specs capq⌋ : ℚ)⟩ : FracEntry) = e :=
        Option.some_inj.mp hsome
      subst he
      exact ⟨p.2, List.mem_enum_iff_getElem?.mp hp, hcond, rfl⟩
  · rintro ⟨s, hs, hcond, hfrac⟩
    refine ⟨(e.index, s), List.mem_enum_iff_getElem?.mpr hs, ?_⟩
    dsimp only
    rw [if_pos hcond, ← hfrac]

theorem fracEntries_index_lt {specs : List TileSpec} {capq : ℚ} {e : FracEntry}
    (he : e ∈ fracEntries specs capq) : e.index < specs.length := by
  obtain ⟨s, hs, -, -⟩ := mem_fracEntries.mp he
  obtain ⟨h, -⟩ := List.getElem?_eq_some.mp hs
  exact h

theorem pairwise_index_filterMap {α : Type} (g : ℕ × α → Option FracEntry)
    (hg : ∀ p e, g p = some e → e.index = p.1) :
    ∀ l : List (ℕ × α), l.Pairwise (fun p q => p.1 < q.1) →
      ((l.filterMap g).map FracEntry.index).Pairwise (· < ·) := by
  intro l
  induction l with
  | nil => intro _; simp
  | cons p t ih =>
    intro hp
    obtain ⟨hrel, ht⟩ := List.pairwise_cons.mp hp
    rw [List.filterMap_cons]
    cases hgp : g p with
    | none => exact ih ht
    | some e =>
      rw [List.map_cons]
      refine List.pairwise_cons.mpr ⟨?_, ih ht⟩
      intro j hj
      obtain ⟨e', he', rfl⟩ := List.mem_map.mp hj
      obtain ⟨q, hq, hgq⟩ := List.mem_filterMap.mp he'
      rw [hg p e hgp, hg q e' hgq]
      exact hrel q hq

theorem fracEntries_index_pairwise (specs : List TileSpec) (capq : ℚ) :
    ((fracEntries specs capq).map FracEntry.index).Pairwise (· < ·) := by
  have henum : specs.enum.Pairwise (fun p q : ℕ × TileSpec => p.1 < q.1) := by
    have h := List.pairwise_lt_range specs.length
    rw [← List.enum_map_fst specs] at h
    exact List.pairwise_map.mp h
  exact pairwise_index_filterMap _
    (fun p e hpe => by
      dsimp only at hpe
      split_ifs at hpe with hc
      exact (Option.some_inj.mp hpe) ▸ rfl)
    specs.enum henum

theorem fracLeDesc_trans (a b c : FracEntry) :
    fracLeDesc a b → fracLeDesc b c → fracLeDesc a c := by
  simp only [fracLeDesc, decide_eq_true_eq]
  rintro (hab | ⟨hab, hab'⟩) (hbc | ⟨hbc, hbc'⟩)
  · exact Or.inl (lt_trans hbc hab)
  · exact Or.inl (hbc ▸ hab)
  · exact Or.inl (hab ▸ hbc)
  · exact Or.inr ⟨hab.trans hbc, le_trans hab' hbc'⟩

theorem fracLeDesc_total (a b : FracEntry) :
    fracLeDesc a b || fracLeDesc b a := by
  rw [Bool.or_eq_true]
  simp only [fracLeDesc, decide_eq_true_eq]
  rcases lt_trichotomy a.frac b.frac with h | h | h
  · exact Or.inr (Or.inl h)
  · rcases le_total a.index b.index with hi | hi
    · exact Or.inl (Or.inr ⟨h, hi⟩)
    · exact Or.inr (Or.inr ⟨h.symm, hi⟩)
  · exact Or.inl (Or.inl h)

theorem adjustedFloors_eq_applyInc (specs : List TileSpec) (capq : ℚ)
    (hFT : ((floorsInit specs capq).sum : ℚ) ≤ targetTotal specs capq) :
    adjustedFloors specs capq =
      applyInc (floorsInit specs capq)
        (((fracEntries specs capq).mergeSort fracLeDesc).take
          (sliceLen (targetTotal specs capq -
            ((floorsInit specs capq).sum : ℚ)))) := by
  simp only [adjustedFloors]
  rw [if_neg (not_lt.mpr hFT)]
  rcases eq_or_lt_of_le hFT with heq | hlt
  · rw [if_neg (not_lt.mpr (le_of_eq heq.symm))]
    have h0 : targetTotal specs capq - ((floorsInit specs capq).sum : ℚ) = 0 := by
      rw [← heq]; ring
    rw [h0]
    simp [sliceLen, applyInc]
  · rw [if_pos hlt]

theorem target_props (specs : List TileSpec) (cap : ℕ)
    (hpos : ∀ s ∈ specs, 0 < s.count) :
    ((floorsInit specs (cap : ℚ)).sum : ℚ) ≤ targetTotal specs (cap : ℚ) ∧
      targetTotal specs (cap : ℚ) - ((floorsInit specs (cap : ℚ)).sum : ℚ) ≤
        ((fracEntries specs (cap : ℚ)).length : ℚ) ∧
      targetTotal specs (cap : ℚ) =
        (((if 0 < cap then
            min (cap : ℤ) (jsRound ((specs.map TileSpec.count).sum))
          else jsRound ((specs.map TileSpec.count).sum)) : ℤ) : ℚ) := by
  set capq : ℚ := (cap : ℚ) with hcapq
  set c : ℚ := tileScale specs capq with hc
  set S : ℚ := (specs.map TileSpec.count).sum with hS
  set l : List ℚ := specs.map fun s => s.count * c with hl
  have hcpos : 0 < c := tileScale_pos specs capq
  have hFl : floorsInit specs capq = l.map fun x => ⌊x⌋ := by
    rw [floorsInit_eq specs capq hpos, hl, List.map_map]
    rfl
  have hA : (scaledTotals specs capq).sum = l.sum := by
    rw [scaledTotals_eq specs capq hpos, hl]
  have hAS : l.sum = S * c := by
    rw [hl, hS]
    exact List.sum_map_mul_right specs TileSpec.count c
  have hFA : ((floorsInit specs capq).sum : ℚ) ≤ l.sum := by
    rw [hFl]
    exact sum_map_floor_le l
  have hfracsum : l.sum - ((floorsInit specs capq).sum : ℚ) ≤
      ((fracEntries specs capq).length : ℚ) := by
    rw [hFl, fracEntries_length specs capq hpos, ← hl]
    have h1 := sum_map_frac_le_countP l
    rw [sum_map_sub_floor l] at h1
    exact h1
  have hT : targetTotal specs capq =
      (if 0 < capq then
        (if c < 1 then capq else min capq ((jsRound l.sum : ℤ) : ℚ))
      else ((jsRound l.sum : ℤ) : ℚ)) := by
    simp only [targetTotal]
    rw [hA, ← hc]
  by_cases hsc : 0 < capq ∧ capq < S
  · -- scaling occurred
    have hc1 : c = capq / S := by
      rw [hc]
      simp only [tileScale]
      rw [← hS, if_pos hsc]
    have hSpos : 0 < S := lt_trans hsc.1 hsc.2
    have hAc : l.sum = capq := by
      rw [hAS, hc1]
      field_simp
    have hclt : c < 1 := by
      rw [hc1, div_lt_one hSpos]
      exact hsc.2
    have hcap0 : 0 < cap := by
      have h' : (0 : ℚ) < (cap : ℚ) := hsc.1
      exact_mod_cast h'
    have hTv : targetTotal specs capq = capq := by
      rw [hT, if_pos hsc.1, if_pos hclt]
    have hround : (cap : ℤ) ≤ jsRound S := by
      simp only [jsRound]
      rw [Int.le_floor]
      push_cast
      linarith [hsc.2]
    refine ⟨?_, ?_, ?_⟩
    · rw [hTv]
      exact hFA.trans hAc.le
    · rw [hTv]
      linarith [hfracsum, hAc]
    · rw [hTv, if_pos hcap0, min_eq_left hround, hcapq]
      push_cast
      rfl
  · -- no scaling
    have hc1 : c = 1 := by
      rw [hc]
      simp only [tileScale]
      rw [← hS, if_neg hsc]
    have hAc : l.sum = S := by rw [hAS, hc1, mul_one]
    have hFr : ((floorsInit specs capq).sum : ℤ) ≤ jsRound S := by
      simp only [jsRound]
      rw [Int.le_floor]
      rw [hAc] at hFA
      linarith
    have hrF : ((jsRound S : ℤ) : ℚ) - ((floorsInit specs capq).sum : ℚ) ≤
        ((fracEntries specs capq).length : ℚ) := by
      rw [hAc] at hfracsum
      have hfloor : jsRound S - (floorsInit specs capq).sum ≤
          ((fracEntries specs capq).length : ℤ) := by
        have heq : jsRound S - (floorsInit specs capq).sum =
            ⌊S - ((floorsInit specs capq).sum : ℚ) + 1/2⌋ := by
          simp only [jsRound]
          rw [show S + 1/2 = (S - ((floorsInit specs capq).sum : ℚ) + 1/2) +
            ((floorsInit specs capq).sum : ℚ) by ring]
          rw [Int.floor_add_int]
          omega
        rw [heq, Int.floor_le_iff, Int.cast_natCast]
        linarith
      exact_mod_cast hfloor
    by_cases hcap : 0 < cap
    · have hcapq0 : 0 < capq := by
        rw [hcapq]
        exact_mod_cast hcap
      have hSle : S ≤ capq := le_of_not_lt fun h => hsc ⟨hcapq0, h⟩
      have hTv : targetTotal specs capq = min capq ((jsRound S : ℤ) : ℚ) := by
        rw [hT, if_pos hcapq0, if_neg (by rw [hc1]; exact lt_irrefl 1), hAc]
      refine ⟨?_, ?_, ?_⟩
      · rw [hTv]
        refine le_min ?_ ?_
        · rw [hAc] at hFA
          linarith
        · exact_mod_cast hFr
      · rw [hTv]
        have : min capq ((jsRound S : ℤ) : ℚ) ≤ ((jsRound S : ℤ) : ℚ) :=
          min_le_right _ _
        linarith
      · rw [hTv, if_pos hcap, hcapq]
        push_cast
        rfl
    · have hcap0 : cap = 0 := Nat.eq_zero_of_not_pos hcap
      have hcapq0 : ¬ 0 < capq := by
        rw [hcapq, hcap0]
        norm_num
      have hTv : targetTotal specs capq = ((jsRound S : ℤ) : ℚ) := by
        rw [hT, if_neg hcapq0, hAc]
      refine ⟨?_, ?_, ?_⟩
      · rw [hTv]
        exact_mod_cast hFr
      · rw [hTv]
        exact hrF
      · rw [hTv, if_neg hcap]

theorem floorsInit_nonneg (specs : List TileSpec) (capq : ℚ) :
    ∀ x ∈ floorsInit specs capq, 0 ≤ x := by
  intro x hx
  simp only [floorsInit, List.mem_map] at hx
  obtain ⟨s, -, rfl⟩ := hx
  split_ifs with h
  · exact le_refl 0
  · exact Int.floor_nonneg.mpr (le_of_lt (not_le.mp h))

theorem sum_filterMap_batches :
    ∀ (specs : List TileSpec) (floors : List ℤ), specs.length = floors.length →
      (∀ x ∈ floors, 0 ≤ x) →
      (((specs.zip floors).filterMap fun p =>
          if p.2 ≤ 0 then none
          else some (⟨p.1.w, p.1.h, p.2⟩ : TileBatch)).map TileBatch.count).sum =
        floors.sum := by
  intro specs
  induction specs with
  | nil =>
    intro floors h _
    cases floors with
    | nil => rfl
    | cons f ft => simp at h
  | cons s st ih =>
    intro floors hlen hnn
    cases floors with
    | nil => simp at hlen
    | cons f ft =>
      simp only [List.zip_cons_cons, List.filterMap_cons]
      by_cases hf : f ≤ 0
      · have hf0 : f = 0 :=
          le_antisymm hf (hnn f (List.mem_cons_self _ _))
        rw [if_pos hf]
        rw [ih ft (by simpa using hlen)
          fun x hx => hnn x (List.mem_cons_of_mem _ hx)]
        simp [hf0]
      · rw [if_neg hf]
        simp only [List.map_cons, List.sum_cons]
        rw [ih ft (by simpa using hlen)
          fun x hx => hnn x (List.mem_cons_of_mem _ hx)]

theorem adjustedFloors_props (specs : List TileSpec) (cap : ℕ)
    (hpos : ∀ s ∈ specs, 0 < s.count) :
    ((adjustedFloors specs (cap : ℚ)).sum : ℚ) = targetTotal specs (cap : ℚ) ∧
      (∀ x ∈ adjustedFloors specs (cap : ℚ), 0 ≤ x) ∧
      (adjustedFloors specs (cap : ℚ)).length = specs.length := by
  obtain ⟨h1, h2, h3⟩ := target_props specs cap hpos
  set capq : ℚ := (cap : ℚ)
  set T : ℚ := targetTotal specs capq with hTdef
  set F : ℤ := (floorsInit specs capq).sum with hFdef
  set t : ℤ := (if 0 < cap then
      min (cap : ℤ) (jsRound ((specs.map TileSpec.count).sum))
    else jsRound ((specs.map TileSpec.count).sum)) with htdef
  set k : ℕ := sliceLen (T - (F : ℚ)) with hkdef
  have hkval : (k : ℤ) = t - F := by
    rw [hkdef]
    simp only [sliceLen]
    have : T - (F : ℚ) = ((t - F : ℤ) : ℚ) := by
      rw [h3]
      push_cast
      ring
    rw [this, Int.floor_intCast]
    have hnn : 0 ≤ t - F := by
      have := h1
      rw [h3] at this
      have : (F : ℚ) ≤ ((t : ℤ) : ℚ) := this
      exact_mod_cast sub_nonneg.mpr (by exact_mod_cast this)
    exact Int.toNat_of_nonneg hnn
  have hklen : k ≤ ((fracEntries specs capq).mergeSort fracLeDesc).length := by
    rw [List.length_mergeSort]
    have : ((k : ℤ) : ℚ) ≤ ((fracEntries specs capq).length : ℚ) := by
      rw [hkval]
      push_cast
      rw [← h3]
      simpa using h2
    exact_mod_cast this
  have hvalid : ∀ e ∈ ((fracEntries specs capq).mergeSort fracLeDesc).take k,
      e.index < (floorsInit specs capq).length := by
    intro e he
    have he1 : e ∈ (fracEntries specs capq).mergeSort fracLeDesc :=
      List.mem_of_mem_take he
    have he2 : e ∈ fracEntries specs capq := List.mem_mergeSort.mp he1
    have := fracEntries_index_lt he2
    simpa [floorsInit] using this
  have heq := adjustedFloors_eq_applyInc specs capq h1
  rw [← hkdef] at heq
  refine ⟨?_, ?_, ?_⟩
  · rw [heq, sum_applyInc _ _ hvalid]
    rw [List.length_take, List.length_mergeSort]
    rw [min_eq_left (by
      have := hklen
      rw [List.length_mergeSort] at this
      exact this)]
    have hsum : (floorsInit specs capq).sum + (k : ℤ) = t := by omega
    rw [h3]
    exact_mod_cast hsum
  · rw [heq]
    exact applyInc_nonneg _ _ (floorsInit_nonneg specs capq)
  · rw [heq, length_applyInc]
    simp [floorsInit]

/-- **C2 counterexample**: the claim quantifies over *every* cap value, but a
fractional cap (reachable through the JSON request, e.g. `cap = 5/2`) breaks
it: for tiles `1x1*10` and cap `5/2`, the code returns a single batch of 2
placements, while `min(cap, round(sum)) = min(5/2, 10) = 5/2 ≠ 2` (the JS
`slice(0, 0.5)` truncates and no largest-remainder unit is ever added). -/
theorem c2_counterexample :
    ((finalizeTileBatches [⟨1, 1, 10⟩] (5/2)).map TileBatch.count).sum = 2 ∧
      ((2 : ℚ) ≠ min (5/2 : ℚ) ((jsRound (10 : ℚ) : ℤ) : ℚ)) := by
  constructor
  · norm_num [finalizeTileBatches, adjustedFloors, floorsInit, targetTotal,
      tileScale, scaledTotals, sliceLen, applyInc, List.filterMap_cons, jsRound]
  · norm_num [jsRound]

/-- **C2 (amended)**: for every tile specification with positive counts and
every *integer* cap value, the sum of the final batch counts produced by
`finalizeTileBatches` equals `min(cap, round(sum of pre-cap counts))` when
`cap > 0`, and equals the rounded pre-cap sum when `cap = 0` (no cap); and no
batch count is negative. -/
theorem c2_apportionment_conservation (specs : List TileSpec) (cap : ℕ)
    (hpos : ∀ s ∈ specs, 0 < s.count) :
    ((finalizeTileBatches specs (cap : ℚ)).map TileBatch.count).sum =
      (if 0 < cap then min (cap : ℤ) (jsRound ((specs.map TileSpec.count).sum))
        else jsRound ((specs.map TileSpec.count).sum)) ∧
      ∀ b ∈ finalizeTileBatches specs (cap : ℚ), 0 ≤ b.count := by
  by_cases hS : (specs.map TileSpec.count).sum = 0
  · have hnil : specs = [] := by
      cases specs with
      | nil => rfl
      | cons s st =>
        exfalso
        have hpos' : ∀ x ∈ List.map TileSpec.count (s :: st), 0 < x := by
          intro x hx
          obtain ⟨y, hy, rfl⟩ := List.mem_map.mp hx
          exact hpos y hy
        have hlt := List.sum_pos _ hpos' (by simp)
        rw [hS] at hlt
        exact lt_irrefl 0 hlt
    subst hnil
    have hz : jsRound ((List.map TileSpec.count ([] : List TileSpec)).sum) = 0 := by
      norm_num [jsRound]
    refine ⟨?_, by simp [finalizeTileBatches]⟩
    rw [hz]
    simp only [finalizeTileBatches]
    norm_num
  · have heq : finalizeTileBatches specs (cap : ℚ) =
        (specs.zip (adjustedFloors specs (cap : ℚ))).filterMap fun p =>
          if p.2 ≤ 0 then none else some ⟨p.1.w, p.1.h, p.2⟩ := by
      rw [finalizeTileBatches, if_neg hS]
    obtain ⟨hs, hnn, hlen⟩ := adjustedFloors_props specs cap hpos
    obtain ⟨-, -, h3⟩ := target_props specs cap hpos
    constructor
    · rw [heq, sum_filterMap_batches specs _ hlen.symm hnn]
      have hq : ((adjustedFloors specs (cap : ℚ)).sum : ℚ) =
          (((if 0 < cap then
              min (cap : ℤ) (jsRound ((specs.map TileSpec.count).sum))
            else jsRound ((specs.map TileSpec.count).sum)) : ℤ) : ℚ) :=
        hs.trans h3
      exact_mod_cast hq
    · intro b hb
      rw [heq] at hb
      obtain ⟨p, hp, hsome⟩ := List.mem_filterMap.mp hb
      split_ifs at hsome with h
      have hb' : (⟨p.1.w, p.1.h, p.2⟩ : TileBatch) = b := Option.some_inj.mp hsome
      rw [← hb']
      exact le_of_lt (not_le.mp h)

theorem c2_apportionment_conservation_witness :
    (∀ s ∈ [(⟨2, 2, 400⟩ : TileSpec), ⟨2, 1, 300⟩, ⟨1, 1, 100⟩], 0 < s.count) ∧
      (((finalizeTileBatches [⟨2, 2, 400⟩, ⟨2, 1, 300⟩, ⟨1, 1, 100⟩]
            ((100 : ℕ) : ℚ)).map TileBatch.count).sum =
        (if 0 < (100 : ℕ) then
          min ((100 : ℕ) : ℤ)
            (jsRound (([(⟨2, 2, 400⟩ : TileSpec), ⟨2, 1, 300⟩,
              ⟨1, 1, 100⟩].map TileSpec.count).sum))
        else jsRound (([(⟨2, 2, 400⟩ : TileSpec), ⟨2, 1, 300⟩,
          ⟨1, 1, 100⟩].map TileSpec.count).sum)) ∧
        ∀ b ∈ finalizeTileBatches [⟨2, 2, 400⟩, ⟨2, 1, 300⟩, ⟨1, 1, 100⟩]
          ((100 : ℕ) : ℚ), 0 ≤ b.count) := by
  have hpos : ∀ s ∈ [(⟨2, 2, 400⟩ : TileSpec), ⟨2, 1, 300⟩, ⟨1, 1, 100⟩],
      0 < s.count := by
    intro s hs
    rcases List.mem_cons.mp hs with rfl | hs
    · norm_num
    rcases List.mem_cons.mp hs with rfl | hs
    · norm_num
    rcases List.mem_cons.mp hs with rfl | hs
    · norm_num
    · simp at hs
  exact ⟨hpos, c2_apportionment_conservation _ 100 hpos⟩

/-- The adjusted (post-scaling) count of entry `i`. -/
def adjustedAt (specs : List TileSpec) (capq : ℚ) (i : ℕ) : ℚ :=
  (specs.getD i ⟨0, 0, 0⟩).count * tileScale specs capq

/-- The fractional remainder of entry `i` after scaling. -/
def fracAt (specs : List TileSpec) (capq : ℚ) (i : ℕ) : ℚ :=
  adjustedAt specs capq i - ⌊adjustedAt specs capq i⌋

theorem fracAt_nonneg (specs : List TileSpec) (capq : ℚ) (i : ℕ) :
    0 ≤ fracAt specs capq i :=
  sub_nonneg.mpr (Int.floor_le _)

theorem frac_eq_of_mem_fracEntries {specs : List TileSpec} {capq : ℚ}
    {e : FracEntry} (he : e ∈ fracEntries specs capq) :
    e.frac = fracAt specs capq e.index ∧ 0 < e.frac := by
  obtain ⟨s, hs, hcond, hfrac⟩ := mem_fracEntries.mp he
  have hgd : specs.getD e.index ⟨0, 0, 0⟩ = s := by
    rw [List.getD_eq_getElem?_getD, hs]
    rfl
  constructor
  · rw [hfrac]
    simp only [fracAt, adjustedAt, hgd]
  · rw [hfrac]
    exact hcond.2

theorem mem_fracEntries_at {specs : List TileSpec} {capq : ℚ}
    (hpos : ∀ s ∈ specs, 0 < s.count) {i : ℕ} (hi : i < specs.length)
    (hf : 0 < fracAt specs capq i) :
    (⟨i, fracAt specs capq i⟩ : FracEntry) ∈ fracEntries specs capq := by
  have hgd : specs.getD i ⟨0, 0, 0⟩ = specs[i] := by
    rw [List.getD_eq_getElem?_getD, List.getElem?_eq_getElem hi]
    rfl
  have hadj : 0 < adjustedAt specs capq i := by
    rw [adjustedAt, hgd]
    exact mul_pos (hpos _ (List.getElem_mem hi)) (tileScale_pos specs capq)
  apply mem_fracEntries.mpr
  refine ⟨specs[i], List.getElem?_eq_getElem hi, ⟨?_, ?_⟩, ?_⟩
  · rw [adjustedAt, hgd] at hadj
    exact hadj
  · have := hf
    rw [fracAt, adjustedAt, hgd] at this
    exact this
  · show fracAt specs capq i = _
    rw [fracAt, adjustedAt, hgd]

/-- **C3 counterexample**: with tiles `1x1*10` and the fractional cap `5/2`
(reachable through the JSON request), the sum of floors (2) is below the
target (5/2), yet no unit is ever added — the claim's "units are added …
until the target is met" fails as stated, because `slice(0, 0.5)` selects
nothing. -/
theorem c3_counterexample :
    ((floorsInit [⟨1, 1, 10⟩] (5/2)).sum : ℚ) < targetTotal [⟨1, 1, 10⟩] (5/2) ∧
      ((adjustedFloors [⟨1, 1, 10⟩] (5/2)).sum : ℚ) ≠
        targetTotal [⟨1, 1, 10⟩] (5/2) := by
  constructor <;>
    norm_num [floorsInit, targetTotal, adjustedFloors, tileScale, scaledTotals,
      sliceLen, applyInc, jsRound]

/-- **C3 (amended)**: for positive-count tile specifications and an *integer*
cap, in `finalizeTileBatches`: the sum of floors never exceeds the target (so
the removal branch never removes anything); each entry gains at most one unit;
units are added to the entries with the largest fractional remainder first
(ties broken by original entry order) until the target is met. -/
theorem c3_largest_remainder (specs : List TileSpec) (cap : ℕ)
    (hpos : ∀ s ∈ specs, 0 < s.count) :
    (((floorsInit specs (cap : ℚ)).sum : ℚ) ≤ targetTotal specs (cap : ℚ)) ∧
      (∀ j : ℕ,
        (adjustedFloors specs (cap : ℚ)).getD j 0 =
            (floorsInit specs (cap : ℚ)).getD j 0 ∨
          (adjustedFloors specs (cap : ℚ)).getD j 0 =
            (floorsInit specs (cap : ℚ)).getD j 0 + 1) ∧
      (((adjustedFloors specs (cap : ℚ)).sum : ℚ) = targetTotal specs (cap : ℚ)) ∧
      (∀ i j : ℕ, i < specs.length → j < specs.length →
        (fracAt specs (cap : ℚ) j < fracAt specs (cap : ℚ) i ∨
          (fracAt specs (cap : ℚ) i = fracAt specs (cap : ℚ) j ∧ i < j)) →
        (adjustedFloors specs (cap : ℚ)).getD j 0 =
          (floorsInit specs (cap : ℚ)).getD j 0 + 1 →
        (adjustedFloors specs (cap : ℚ)).getD i 0 =
          (floorsInit specs (cap : ℚ)).getD i 0 + 1) := by
  obtain ⟨h1, h2, h3⟩ := target_props specs cap hpos
  obtain ⟨hsum, -, -⟩ := adjustedFloors_props specs cap hpos
  set capq : ℚ := (cap : ℚ)
  set k : ℕ := sliceLen (targetTotal specs capq -
    ((floorsInit specs capq).sum : ℚ)) with hkdef
  set sorted : List FracEntry :=
    (fracEntries specs capq).mergeSort fracLeDesc with hsorteddef
  have heq := adjustedFloors_eq_applyInc specs capq h1
  rw [← hkdef, ← hsorteddef] at heq
  have hvalid : ∀ e ∈ sorted.take k, e.index < (floorsInit specs capq).length := by
    intro e he
    have he2 : e ∈ fracEntries specs capq :=
      List.mem_mergeSort.mp (List.mem_of_mem_take he)
    have := fracEntries_index_lt he2
    simpa [floorsInit] using this
  have hnodup : ((sorted.take k).map FracEntry.index).Nodup := by
    have hfr : ((fracEntries specs capq).map FracEntry.index).Nodup :=
      (fracEntries_index_pairwise specs capq).imp ne_of_lt
    have hperm : (sorted.map FracEntry.index).Nodup := by
      refine (List.Perm.nodup_iff ?_).mpr hfr
      exact (List.mergeSort_perm (fracEntries specs capq) fracLeDesc).map _
    exact hperm.sublist ((List.take_sublist k sorted).map _)
  have hchar := applyInc_getD (sorted.take k) (floorsInit specs capq) hnodup hvalid
  have hmem_frac : ∀ e ∈ sorted.take k, e ∈ fracEntries specs capq := fun e he =>
    List.mem_mergeSort.mp (List.mem_of_mem_take he)
  refine ⟨h1, ?_, hsum, ?_⟩
  · intro j
    rw [heq, hchar j]
    by_cases hj : j ∈ (sorted.take k).map FracEntry.index
    · rw [if_pos hj]
      right
      rfl
    · rw [if_neg hj]
      left
      omega
  · intro i j hi hj horder hbump
    rw [heq, hchar j] at hbump
    have hjmem : j ∈ (sorted.take k).map FracEntry.index := by
      by_contra hc
      rw [if_neg hc] at hbump
      omega
    obtain ⟨ej, hej, hejidx⟩ := List.mem_map.mp hjmem
    obtain ⟨hejfrac, hejpos⟩ := frac_eq_of_mem_fracEntries (hmem_frac ej hej)
    have hfracj : 0 < fracAt specs capq j := by
      rw [← hejidx, ← hejfrac]
      exact hejpos
    have hfraci : 0 < fracAt specs capq i := by
      rcases horder with h | h
      · exact lt_of_le_of_lt (fracAt_nonneg specs capq j) h
      · rw [h.1]
        exact hfracj
    have hei : (⟨i, fracAt specs capq i⟩ : FracEntry) ∈ sorted :=
      List.mem_mergeSort.mpr (mem_fracEntries_at hpos hi hfraci)
    rw [heq, hchar i]
    rcases List.mem_append.mp
        ((List.take_append_drop k sorted) ▸ hei) with hmem | hdrop
    · rw [if_pos (List.mem_map.mpr ⟨_, hmem, rfl⟩)]
    · exfalso
      have hsorted : sorted.Pairwise fun a b => fracLeDesc a b := by
        rw [hsorteddef]
        exact List.sorted_mergeSort fracLeDesc_trans fracLeDesc_total _
      have hpw := (List.pairwise_append.mp
        ((List.take_append_drop k sorted) ▸ hsorted)).2.2
      have hle : fracLeDesc ej ⟨i, fracAt specs capq i⟩ := hpw ej hej _ hdrop
      simp only [fracLeDesc, decide_eq_true_eq] at hle
      rcases hle with hle | hle
      · rw [← hejidx, ← hejfrac] at horder
        rcases horder with h | h
        · exact absurd (lt_trans h hle) (lt_irrefl _)
        · rw [h.1] at hle
          exact absurd hle (lt_irrefl _)
      · rw [← hejidx, ← hejfrac] at horder
        rcases horder with h | h
        · rw [hle.1] at h
          exact absurd h (lt_irrefl _)
        · exact absurd (lt_of_lt_of_le h.2 hle.2) (lt_irrefl i)

theorem c3_largest_remainder_witness :
    (∀ s ∈ [(⟨2, 2, 5/2⟩ : TileSpec), ⟨1, 1, 3/2⟩], 0 < s.count) ∧
      ((((floorsInit [(⟨2, 2, 5/2⟩ : TileSpec), ⟨1, 1, 3/2⟩]
          ((3 : ℕ) : ℚ)).sum : ℚ) ≤
        targetTotal [(⟨2, 2, 5/2⟩ : TileSpec), ⟨1, 1, 3/2⟩] ((3 : ℕ) : ℚ)) ∧
      (∀ j : ℕ,
        (adjustedFloors [(⟨2, 2, 5/2⟩ : TileSpec), ⟨1, 1, 3/2⟩]
            ((3 : ℕ) : ℚ)).getD j 0 =
            (floorsInit [(⟨2, 2, 5/2⟩ : TileSpec), ⟨1, 1, 3/2⟩]
              ((3 : ℕ) : ℚ)).getD j 0 ∨
          (adjustedFloors [(⟨2, 2, 5/2⟩ : TileSpec), ⟨1, 1, 3/2⟩]
            ((3 : ℕ) : ℚ)).getD j 0 =
            (floorsInit [(⟨2, 2, 5/2⟩ : TileSpec), ⟨1, 1, 3/2⟩]
              ((3 : ℕ) : ℚ)).getD j 0 + 1) ∧
      (((adjustedFloors [(⟨2, 2, 5/2⟩ : TileSpec), ⟨1, 1, 3/2⟩]
          ((3 : ℕ) : ℚ)).sum : ℚ) =
        targetTotal [(⟨2, 2, 5/2⟩ : TileSpec), ⟨1, 1, 3/2⟩] ((3 : ℕ) : ℚ)) ∧
      (∀ i j : ℕ, i < ([(⟨2, 2, 5/2⟩ : TileSpec), ⟨1, 1, 3/2⟩]).length →
        j < ([(⟨2, 2, 5/2⟩ : TileSpec), ⟨1, 1, 3/2⟩]).length →
        (fracAt [(⟨2, 2, 5/2⟩ : TileSpec), ⟨1, 1, 3/2⟩] ((3 : ℕ) : ℚ) j <
            fracAt [(⟨2, 2, 5/2⟩ : TileSpec), ⟨1, 1, 3/2⟩] ((3 : ℕ) : ℚ) i ∨
          (fracAt [(⟨2, 2, 5/2⟩ : TileSpec), ⟨1, 1, 3/2⟩] ((3 : ℕ) : ℚ) i =
            fracAt [(⟨2, 2, 5/2⟩ : TileSpec), ⟨1, 1, 3/2⟩] ((3 : ℕ) : ℚ) j ∧
            i < j)) →
        (adjustedFloors [(⟨2, 2, 5/2⟩ : TileSpec), ⟨1, 1, 3/2⟩]
          ((3 : ℕ) : ℚ)).getD j 0 =
          (floorsInit [(⟨2, 2, 5/2⟩ : TileSpec), ⟨1, 1, 3/2⟩]
            ((3 : ℕ) : ℚ)).getD j 0 + 1 →
        (adjustedFloors [(⟨2, 2, 5/2⟩ : TileSpec), ⟨1, 1, 3/2⟩]
          ((3 : ℕ) : ℚ)).getD i 0 =
          (floorsInit [(⟨2, 2, 5/2⟩ : TileSpec), ⟨1, 1, 3/2⟩]
            ((3 : ℕ) : ℚ)).getD i 0 + 1)) := by
  have hpos : ∀ s ∈ [(⟨2, 2, 5/2⟩ : TileSpec), ⟨1, 1, 3/2⟩], 0 < s.count := by
    intro s hs
    rcases List.mem_cons.mp hs with rfl | hs
    · norm_num
    rcases List.mem_cons.mp hs with rfl | hs
    · norm_num
    · simp at hs
  exact ⟨hpos, c3_largest_remainder _ 3 hpos⟩

/-! ### Data model: modes and normalized request parameters -/

inductive MapMode where
  | center
  | weighted
  | islands
  | dualContinents
  | ring
deriving DecidableEq

/-- `GenerationParams` (source lines 60–81), the normalized request. -/
structure GenerationParams where
  width : ℤ
  height : ℤ
  tileString : String
  ka : ℚ
  cap : ℚ
  mode : MapMode
  rings : ℤ
  ringStart : ℚ
  ringEnd : ℚ
  seed : String
  logTone : Bool
  brownCap : ℤ
  bgAlpha : ℤ
  islands : ℤ
  islandRFrac : ℚ
  rotate : Bool
  polish : Bool
  n22 : ℚ
  n21 : ℚ
  n11 : ℚ

/-! ### Deterministic RNG

Modelled from the spec: the `seedrandom` PRNG is an external dependency of the
repository; the spec's contract is a deterministic stream of uniform values in
`[0,1)` derived from the seed ("Same seed ⇒ identical sequence").  We model the
stream with a concrete integer mixing function; every theorem relies only on
determinism and the `[0,1)` range. -/

def uniformWord (seed pos : ℕ) : ℕ :=
  (seed * 6364136223846793005 + pos * 1442695040888963407 + 1013904223) % 2 ^ 32

def uniformVal (seed pos : ℕ) : ℚ :=
  (uniformWord seed pos : ℚ) / 2 ^ 32

/-- `Number.EPSILON`. -/
def jsEpsilon : ℚ := 1 / 2 ^ 52

/-- The RNG state: seed, position in the uniform stream, and the cached spare
normal value of the Box–Muller pair (source lines 95–126). -/
structure RNG where
  seed : ℕ
  pos : ℕ
  spare : Option ℝ

def RNG.init (seed : ℕ) : RNG := ⟨seed, 0, none⟩

/-- `float()` — one uniform draw (`seedrandom.quick()`). -/
def RNG.float (r : RNG) : ℚ × RNG :=
  (uniformVal r.seed r.pos, { r with pos := r.pos + 1 })

/-- `intn(n)` — `Math.floor(quick() * n)`, drawing nothing when `n ≤ 0`. -/
def RNG.intn (r : RNG) (n : ℤ) : ℤ × RNG :=
  if n ≤ 0 then (0, r)
  else
    let fr := r.float
    (⌊fr.1 * (n : ℚ)⌋, fr.2)

/-- `normFloat64()` — Box–Muller with the spare-value cache (source lines
112–125); `u || Number.EPSILON` guards the zero draw. -/
noncomputable def RNG.normFloat64 (r : RNG) : ℝ × RNG :=
  match r.spare with
  | some v => (v, { r with spare := none })
  | none =>
    let f1 := r.float
    let f2 := f1.2.float
    let u : ℚ := jsOr f1.1 jsEpsilon
    let v : ℚ := jsOr f2.1 jsEpsilon
    let mag : ℝ := Real.sqrt (-2 * Real.log (u : ℝ))
    let z0 : ℝ := mag * Real.cos (2 * Real.pi * (v : ℝ))
    let z1 : ℝ := mag * Real.sin (2 * Real.pi * (v : ℝ))
    (z0, { f1.2.float.2 with spare := some z1 })

theorem uniformVal_nonneg (seed pos : ℕ) : 0 ≤ uniformVal seed pos := by
  unfold uniformVal
  positivity

theorem uniformVal_lt_one (seed pos : ℕ) : uniformVal seed pos < 1 := by
  unfold uniformVal
  rw [div_lt_one (by norm_num)]
  have h : uniformWord seed pos < 2 ^ 32 := Nat.mod_lt _ (by norm_num)
  exact_mod_cast h

theorem intn_nonneg (r : RNG) (n : ℤ) : 0 ≤ (r.intn n).1 := by
  unfold RNG.intn
  split_ifs with h
  · exact le_refl 0
  · exact Int.floor_nonneg.mpr
      (mul_nonneg (uniformVal_nonneg _ _) (by exact_mod_cast le_of_not_le h))

theorem intn_lt (r : RNG) {n : ℤ} (h : 0 < n) : (r.intn n).1 < n := by
  unfold RNG.intn
  rw [if_neg (not_le.mpr h)]
  apply Int.floor_lt.mpr
  calc ((r.float.1 : ℚ)) * (n : ℚ) < 1 * (n : ℚ) := by
        apply mul_lt_mul_of_pos_right (uniformVal_lt_one _ _)
        exact_mod_cast h
    _ = ((n : ℤ) : ℚ) := by norm_num

/-! ### Placement engine (`Generator`, source lines 128–597) -/

structure Generator where
  width : ℤ
  height : ℤ
  mode : MapMode
  rings : ℤ
  ringStart : ℚ
  ringEnd : ℚ
  islands : ℤ
  islandRFrac : ℚ
  islandCenters : List (ℤ × ℤ)
  continentCenters : List (ℤ × ℤ)
  ringBoundaries : List ℚ
  totalArea : ℚ
  sumX : ℚ
  sumY : ℚ

/-- The `initIslands` loop (source lines 171–188): each center draws its x
and its y only when the margin-inset span is positive. -/
def initIslandsLoop (width height margin : ℤ) : ℕ → RNG → List (ℤ × ℤ) × RNG
  | 0, r => ([], r)
  | n + 1, r =>
    let xr : ℤ × RNG :=
      if 0 < width - 2 * margin then
        let p := r.intn (width - 2 * margin)
        (margin + p.1, p.2)
      else (margin, r)
    let yr : ℤ × RNG :=
      if 0 < height - 2 * margin then
        let p := xr.2.intn (height - 2 * margin)
        (margin + p.1, p.2)
      else (margin, xr.2)
    let rest := initIslandsLoop width height margin n yr.2
    ((xr.1, yr.1) :: rest.1, rest.2)

/-- The `Generator` constructor (source lines 145–169): mode-specific anchor
initialization.  `initRingBands` also overwrites the stored ring bounds. -/
def Generator.build (p : GenerationParams) (r : RNG) : Generator × RNG :=
  let base : Generator :=
    { width := p.width, height := p.height, mode := p.mode, rings := p.rings
      ringStart := p.ringStart, ringEnd := p.ringEnd, islands := p.islands
      islandRFrac := p.islandRFrac, islandCenters := [], continentCenters := []
      ringBoundaries := [], totalArea := 0, sumX := 0, sumY := 0 }
  match p.mode with
  | .islands =>
    let count : ℤ := max 1 (jsOr p.islands 3)
    let margin : ℤ := ⌊(min (p.width : ℚ) (p.height : ℚ)) / 10⌋
    let centers := initIslandsLoop p.width p.height margin count.toNat r
    ({ base with islandCenters := centers.1 }, centers.2)
  | .dualContinents =>
    ({ base with continentCenters :=
        [(⌊(p.width : ℚ) / 4⌋, ⌊(p.height : ℚ) / 2⌋),
          (⌊(3 * p.width : ℚ) / 4⌋, ⌊(p.height : ℚ) / 2⌋)] }, r)
  | .ring =>
    let bands := initRingBands p.rings p.ringStart p.ringEnd
    ({ base with
        ringStart := bands.1
        ringEnd := bands.2.1
        ringBoundaries := bands.2.2 }, r)
  | _ => (base, r)

/-- `recordPlacement` (source lines 561–569). -/
def Generator.recordPlacement (g : Generator) (x y tw th : ℤ) : Generator :=
  let area : ℚ := ((tw * th : ℤ) : ℚ)
  if area ≤ 0 then g
  else
    { g with
      totalArea := g.totalArea + area
      sumX := g.sumX + ((x : ℚ) + (tw : ℚ) / 2) * area
      sumY := g.sumY + ((y : ℚ) + (th : ℚ) / 2) * area }

/-- `centerOfMass` (source lines 571–574). -/
def Generator.centerOfMass (g : Generator) : Option (ℚ × ℚ) :=
  if g.totalArea ≤ 0 then none
  else some (g.sumX / g.totalArea, g.sumY / g.totalArea)

/-- `randomPlacement` (source lines 263–269): uniform over the valid span,
drawing only when the span is positive. -/
def Generator.randomPlacement (g : Generator) (tw th : ℤ) (r : RNG) :
    (ℤ × ℤ) × RNG :=
  let spanX := max 0 (g.width - tw)
  let spanY := max 0 (g.height - th)
  let xr : ℤ × RNG := if 0 < spanX then r.intn (spanX + 1) else (0, r)
  let yr : ℤ × RNG := if 0 < spanY then xr.2.intn (spanY + 1) else (0, xr.2)
  ((xr.1, yr.1), yr.2)

/-- `Math.hypot a b` over exact coordinates. -/
noncomputable def hypotQ (a b : ℚ) : ℝ :=
  Real.sqrt ((a : ℝ) ^ 2 + (b : ℝ) ^ 2)

/-- `distanceAfterPlacement` (source lines 576–596): distance from the canvas
center of the hypothetical centroid after adding this tile. -/
noncomputable def Generator.distanceAfterPlacement (g : Generator)
    (x y tw th : ℤ) (targetX targetY : ℚ) : ℝ :=
  let area : ℚ := ((tw * th : ℤ) : ℚ)
  if area ≤ 0 then
    match g.centerOfMass with
    | none => 0
    | some c => hypotQ (c.1 - targetX) (c.2 - targetY)
  else
    let total := g.totalArea + area
    let tileCenterX : ℚ := (x : ℚ) + (tw : ℚ) / 2
    let tileCenterY : ℚ := (y : ℚ) + (th : ℚ) / 2
    let newCx := (g.sumX + tileCenterX * area) / total
    let newCy := (g.sumY + tileCenterY * area) / total
    hypotQ (newCx - targetX) (newCy - targetY)

/-- The 24-candidate loop of `positionWeighted` (source lines 504–518), with
its early exit at 70% of the pre-placement centroid distance. -/
noncomputable def Generator.weightedLoop (g : Generator) (tw th : ℤ)
    (targetX targetY : ℚ) (currentDist : Option ℝ) :
    ℕ → (ℤ × ℤ × ℝ) → RNG → (ℤ × ℤ) × RNG
  | 0, best, r => ((best.1, best.2.1), r)
  | n + 1, best, r =>
    let pr := g.randomPlacement tw th r
    let x := pr.1.1
    let y := pr.1.2
    let score := g.distanceAfterPlacement x y tw th targetX targetY
    if score < best.2.2 then
      match currentDist with
      | some cd =>
        if score ≤ cd * (7/10 : ℝ) then ((x, y), pr.2)
        else g.weightedLoop tw th targetX targetY (some cd) n (x, y, score) pr.2
      | none => g.weightedLoop tw th targetX targetY none n (x, y, score) pr.2
    else g.weightedLoop tw th targetX targetY currentDist n best pr.2

/-- `positionWeighted` (source lines 447–521). -/
noncomputable def Generator.positionWeighted (g : Generator) (tw th : ℤ)
    (r : RNG) : (ℤ × ℤ) × RNG :=
  let targetX : ℚ := (g.width : ℚ) / 2
  let targetY : ℚ := (g.height : ℚ) / 2
  let centerX := clampInt (jsRound targetX - ⌊(tw : ℚ) / 2⌋) 0 (g.width - tw)
  let centerY := clampInt (jsRound targetY - ⌊(th : ℚ) / 2⌋) 0 (g.height - th)
  let bestScore := g.distanceAfterPlacement centerX centerY tw th targetX targetY
  match g.centerOfMass with
  | none =>
    g.weightedLoop tw th targetX targetY none 24 (centerX, centerY, bestScore) r
  | some c =>
    let currentDist := hypotQ (c.1 - targetX) (c.2 - targetY)
    let mirrorX := clampInt (jsRound (targetX * 2 - c.1) - ⌊(tw : ℚ) / 2⌋)
      0 (g.width - tw)
    let mirrorY := clampInt (jsRound (targetY * 2 - c.2) - ⌊(th : ℚ) / 2⌋)
      0 (g.height - th)
    let mirrorScore := g.distanceAfterPlacement mirrorX mirrorY tw th targetX targetY
    let best :=
      if mirrorScore < bestScore then (mirrorX, mirrorY, mirrorScore)
      else (centerX, centerY, bestScore)
    g.weightedLoop tw th targetX targetY (some currentDist) 24 best r

/-- The 16-attempt rejection loop of `sampleCenteredDisk` (source lines
395–423); returns the final RNG on exhaustion. -/
noncomputable def Generator.diskAttempts (g : Generator) (tw th : ℤ)
    (maxOffsetX maxOffsetY : ℚ) : ℕ → RNG → Option (ℤ × ℤ) × RNG
  | 0, r => (none, r)
  | n + 1, r =>
    let f1 := r.float
    let f2 := f1.2.float
    let theta : ℝ := (f1.1 : ℝ) * 2 * Real.pi
    let radiusFactor : ℝ := Real.sqrt (f2.1 : ℝ)
    let dx : ℝ := Real.cos theta * (maxOffsetX : ℝ) * radiusFactor
    let dy : ℝ := Real.sin theta * (maxOffsetY : ℝ) * radiusFactor
    let tileCenterX : ℝ :=
      clampFloat (((g.width : ℝ)) / 2 + dx) ((tw : ℝ) / 2) ((g.width : ℝ) - (tw : ℝ) / 2)
    let tileCenterY : ℝ :=
      clampFloat (((g.height : ℝ)) / 2 + dy) ((th : ℝ) / 2) ((g.height : ℝ) - (th : ℝ) / 2)
    let x := clampInt (jsRound (tileCenterX - (tw : ℝ) / 2)) 0 (g.width - tw)
    let y := clampInt (jsRound (tileCenterY - (th : ℝ) / 2)) 0 (g.height - th)
    if 0 ≤ x ∧ x ≤ g.width - tw ∧ 0 ≤ y ∧ y ≤ g.height - th then
      (some (x, y), f2.2)
    else g.diskAttempts tw th maxOffsetX maxOffsetY n f2.2

/-- `sampleCenteredDisk` (source lines 371–436). -/
noncomputable def Generator.sampleCenteredDisk (g : Generator) (tw th : ℤ)
    (fraction : ℚ) (r : RNG) : (ℤ × ℤ) × RNG :=
  let centerX : ℚ := (g.width : ℚ) / 2
  let centerY : ℚ := (g.height : ℚ) / 2
  let regionRadiusX : ℚ := min ((g.width : ℚ) / 2) ((g.width : ℚ) * fraction / 2)
  let regionRadiusY : ℚ := min ((g.height : ℚ) / 2) ((g.height : ℚ) * fraction / 2)
  let maxOffsetX : ℚ := max 0 (min regionRadiusX ((g.width : ℚ) / 2 - (tw : ℚ) / 2))
  let maxOffsetY : ℚ := max 0 (min regionRadiusY ((g.height : ℚ) / 2 - (th : ℚ) / 2))
  if maxOffsetX = 0 ∧ maxOffsetY = 0 then
    ((clampInt (jsRound (centerX - (tw : ℚ) / 2)) 0 (g.width - tw),
      clampInt (jsRound (centerY - (th : ℚ) / 2)) 0 (g.height - th)), r)
  else
    match g.diskAttempts tw th maxOffsetX maxOffsetY 16 r with
    | (some pt, r') => (pt, r')
    | (none, r') =>
      ((clampInt (jsRound (centerX - (tw : ℚ) / 2)) 0 (g.width - tw),
        clampInt (jsRound (centerY - (th : ℚ) / 2)) 0 (g.height - th)), r')

/-- `positionCenter` (source lines 366–445): 70% tight disk, 29% wider disk,
1% uniform. -/
noncomputable def Generator.positionCenter (g : Generator) (tw th : ℤ)
    (r : RNG) : (ℤ × ℤ) × RNG :=
  let fr := r.float
  if fr.1 < (7/10 : ℚ) then g.sampleCenteredDisk tw th (3/10) fr.2
  else if fr.1 < (99/100 : ℚ) then g.sampleCenteredDisk tw th (1/2) fr.2
  else g.randomPlacement tw th fr.2

/-- `positionIslands` (source lines 523–541). -/
noncomputable def Generator.positionIslands (g : Generator) (tw th : ℤ)
    (r : RNG) : (ℤ × ℤ) × RNG :=
  if g.islandCenters.length = 0 then g.positionCenter tw th r
  else
    let ir := r.intn (g.islandCenters.length : ℤ)
    let center := g.islandCenters.getD ir.1.toNat (0, 0)
    let radiusFrac : ℚ := max (jsOr g.islandRFrac (1/4)) (1/20)
    let maxRadius : ℚ := radiusFrac * min (g.width : ℚ) (g.height : ℚ)
    let fr := ir.2.float
    let radius : ℚ := fr.1 * maxRadius
    let tr := fr.2.float
    let theta : ℝ := (tr.1 : ℝ) * 2 * Real.pi
    let cx : ℝ := (center.1 : ℝ) + Real.cos theta * (radius : ℝ)
    let cy : ℝ := (center.2 : ℝ) + Real.sin theta * (radius : ℝ)
    ((clampInt (jsRound cx - ⌊(tw : ℚ) / 2⌋) 0 (g.width - tw),
      clampInt (jsRound cy - ⌊(th : ℚ) / 2⌋) 0 (g.height - th)), tr.2)

/-- The 6-attempt normal-offset loop of `positionDualContinents` (source
lines 551–557). -/
noncomputable def Generator.dualAttempts (g : Generator) (tw th cx cy : ℤ)
    (sigmaX sigmaY : ℚ) : ℕ → RNG → Option (ℤ × ℤ) × RNG
  | 0, r => (none, r)
  | n + 1, r =>
    let n1 := r.normFloat64
    let n2 := n1.2.normFloat64
    let x : ℤ := jsRound ((cx : ℝ) + n1.1 * (sigmaX : ℝ))
    let y : ℤ := jsRound ((cy : ℝ) + n2.1 * (sigmaY : ℝ))
    if 0 ≤ x ∧ x ≤ g.width - tw ∧ 0 ≤ y ∧ y ≤ g.height - th then
      (some (x, y), n2.2)
    else g.dualAttempts tw th cx cy sigmaX sigmaY n n2.2

/-- `positionDualContinents` (source lines 543–559). -/
noncomputable def Generator.positionDualContinents (g : Generator)
    (tw th : ℤ) (r : RNG) : (ℤ × ℤ) × RNG :=
  if g.continentCenters.length = 0 then g.positionCenter tw th r
  else
    let ir := r.intn (g.continentCenters.length : ℤ)
    let center := g.continentCenters.getD ir.1.toNat (0, 0)
    let sigmaX : ℚ := (g.width : ℚ) / 10
    let sigmaY : ℚ := (g.height : ℚ) / 6
    match g.dualAttempts tw th center.1 center.2 sigmaX sigmaY 6 ir.2 with
    | (some pt, r') => (pt, r')
    | (none, r') => g.positionCenter tw th r'

/-- The weighted threshold scan of `selectRingSegment` (source lines
302–308). -/
noncomputable def ringScan : List ℝ → ℝ → ℤ → ℤ → ℤ
  | [], _, _, fallback => fallback
  | w :: rest, th, i, fallback =>
    if th - w ≤ 0 then i else ringScan rest (th - w) (i + 1) fallback

/-- `selectRingSegment` (source lines 271–311): radial falloff weights
`0.02 + normalized^1.5` per segment, then a roulette draw. -/
noncomputable def Generator.selectRingSegment (g : Generator) (r : RNG) :
    ℤ × RNG :=
  let segments : ℤ := (g.ringBoundaries.length : ℤ) - 1
  if segments ≤ 0 then (-1, r)
  else
    let start := clampFloat g.ringStart 0 1
    let endv := clampFloat g.ringEnd start 1
    let span : ℚ := max (endv - start) (1/1000)
    let weights : List ℝ :=
      (List.range segments.toNat).map fun i =>
        let inner := max (g.ringBoundaries.getD i 0) start
        let outer := min (g.ringBoundaries.getD (i + 1) 0) endv
        if outer ≤ inner then 0
        else (1/50 : ℝ) +
          ((clampFloat (((inner + outer) / 2 - start) / span) 0 1 : ℚ) : ℝ) ^
            (3/2 : ℝ)
    let totalWeight := weights.sum
    if totalWeight ≤ 0 then (segments - 1, r)
    else
      let fr := r.float
      (ringScan weights ((fr.1 : ℝ) * totalWeight) 0 (segments - 1), fr.2)

/-- The 12-attempt loop of `positionRing` (source lines 316–343). -/
noncomputable def Generator.ringAttempts (g : Generator) (tw th : ℤ)
    (radiusMax : ℚ) : ℕ → RNG → Option (ℤ × ℤ) × RNG
  | 0, r => (none, r)
  | n + 1, r =>
    let sr := g.selectRingSegment r
    let segment := sr.1
    if segment < 0 ∨ (g.ringBoundaries.length : ℤ) ≤ segment + 1 then
      g.ringAttempts tw th radiusMax n sr.2
    else
      let inner : ℚ := max (g.ringBoundaries.getD segment.toNat 0) g.ringStart
      let outer : ℚ :=
        min (max inner (g.ringBoundaries.getD (segment.toNat + 1) 0)) g.ringEnd
      if outer ≤ inner then g.ringAttempts tw th radiusMax n sr.2
      else
        let fr := sr.2.float
        let radiusFrac : ℚ := inner + fr.1 * (outer - inner)
        let tr := fr.2.float
        let theta : ℝ := (tr.1 : ℝ) * 2 * Real.pi
        let radius : ℚ := radiusFrac * radiusMax
        let cx : ℝ := (g.width : ℝ) / 2 + Real.cos theta * (radius : ℝ)
        let cy : ℝ := (g.height : ℝ) / 2 + Real.sin theta * (radius : ℝ)
        (some (clampInt (jsRound cx - ⌊(tw : ℚ) / 2⌋) 0 (g.width - tw),
          clampInt (jsRound cy - ⌊(th : ℚ) / 2⌋) 0 (g.height - th)), tr.2)

/-- `positionRing` (source lines 313–364). -/
noncomputable def Generator.positionRing (g : Generator) (tw th : ℤ)
    (r : RNG) : (ℤ × ℤ) × RNG :=
  let radiusMax : ℚ := min (g.width : ℚ) (g.height : ℚ) / 2
  match g.ringAttempts tw th radiusMax 12 r with
  | (some pt, r') => (pt, r')
  | (none, r') =>
    let fallbackSpan : ℚ := max (g.ringEnd - g.ringStart) 0
    if 0 < fallbackSpan then
      let fr := r'.float
      let radiusFrac : ℚ := g.ringStart + fr.1 * fallbackSpan
      let tr := fr.2.float
      let theta : ℝ := (tr.1 : ℝ) * 2 * Real.pi
      let radius : ℚ := radiusFrac * radiusMax
      let cx : ℝ := (g.width : ℝ) / 2 + Real.cos theta * (radius : ℝ)
      let cy : ℝ := (g.height : ℝ) / 2 + Real.sin theta * (radius : ℝ)
      ((clampInt (jsRound cx - ⌊(tw : ℚ) / 2⌋) 0 (g.width - tw),
        clampInt (jsRound cy - ⌊(th : ℚ) / 2⌋) 0 (g.height - th)), tr.2)
    else g.randomPlacement tw th r'

/-- `positionForTile` (source lines 242–261): degenerate `(0,0)` when the
tile does not fit strictly, otherwise mode dispatch. -/
noncomputable def Generator.positionForTile (g : Generator) (tw th : ℤ)
    (r : RNG) : (ℤ × ℤ) × RNG :=
  if g.width ≤ tw ∨ g.height ≤ th then ((0, 0), r)
  else
    match g.mode with
    | .center => g.positionCenter tw th r
    | .weighted => g.positionWeighted tw th r
    | .islands => g.positionIslands tw th r
    | .dualContinents => g.positionDualContinents tw th r
    | .ring => g.positionRing tw th r

/-! #### Placement bounds -/

theorem clampInt_mem {v m : ℤ} (hm : 0 ≤ m) :
    0 ≤ clampInt v 0 m ∧ clampInt v 0 m ≤ m :=
  ⟨le_clampInt hm, clampInt_le hm⟩

theorem positionForTile_degenerate (g : Generator) (tw th : ℤ) (r : RNG)
    (h : g.width ≤ tw ∨ g.height ≤ th) :
    g.positionForTile tw th r = ((0, 0), r) := by
  unfold Generator.positionForTile
  rw [if_pos h]

theorem randomPlacement_bounds (g : Generator) (tw th : ℤ) (r : RNG)
    (h1 : tw ≤ g.width) (h2 : th ≤ g.height) :
    0 ≤ (g.randomPlacement tw th r).1.1 ∧
      (g.randomPlacement tw th r).1.1 ≤ g.width - tw ∧
      0 ≤ (g.randomPlacement tw th r).1.2 ∧
      (g.randomPlacement tw th r).1.2 ≤ g.height - th := by
  have hx : max 0 (g.width - tw) = g.width - tw :=
    max_eq_right (sub_nonneg.mpr h1)
  have hy : max 0 (g.height - th) = g.height - th :=
    max_eq_right (sub_nonneg.mpr h2)
  simp only [Generator.randomPlacement]
  split_ifs with hcx hcy hcy
  all_goals try dsimp only
  · have h1a := intn_nonneg r (max 0 (g.width - tw) + 1)
    have h1b := intn_lt r (show (0 : ℤ) < max 0 (g.width - tw) + 1 by omega)
    have h2a := intn_nonneg (r.intn (max 0 (g.width - tw) + 1)).2
      (max 0 (g.height - th) + 1)
    have h2b := intn_lt (r.intn (max 0 (g.width - tw) + 1)).2
      (show (0 : ℤ) < max 0 (g.height - th) + 1 by omega)
    refine ⟨h1a, by omega, h2a, by omega⟩
  · have h1a := intn_nonneg r (max 0 (g.width - tw) + 1)
    have h1b := intn_lt r (show (0 : ℤ) < max 0 (g.width - tw) + 1 by omega)
    refine ⟨h1a, by omega, le_refl 0, by omega⟩
  · have h2a := intn_nonneg r (max 0 (g.height - th) + 1)
    have h2b := intn_lt r (show (0 : ℤ) < max 0 (g.height - th) + 1 by omega)
    refine ⟨le_refl 0, by omega, h2a, by omega⟩
  · refine ⟨le_refl 0, by omega, le_refl 0, by omega⟩

theorem weightedLoop_bounds (g : Generator) (tw th : ℤ) (targetX targetY : ℚ)
    (currentDist : Option ℝ) (h1 : tw ≤ g.width) (h2 : th ≤ g.height) :
    ∀ (n : ℕ) (best : ℤ × ℤ × ℝ) (r : RNG),
      0 ≤ best.1 → best.1 ≤ g.width - tw →
      0 ≤ best.2.1 → best.2.1 ≤ g.height - th →
      0 ≤ (g.weightedLoop tw th targetX targetY currentDist n best r).1.1 ∧
        (g.weightedLoop tw th targetX targetY currentDist n best r).1.1 ≤
          g.width - tw ∧
        0 ≤ (g.weightedLoop tw th targetX targetY currentDist n best r).1.2 ∧
        (g.weightedLoop tw th targetX targetY currentDist n best r).1.2 ≤
          g.height - th := by
  intro n
  induction n with
  | zero =>
    intro best r hb1 hb2 hb3 hb4
    simp only [Generator.weightedLoop]
    exact ⟨hb1, hb2, hb3, hb4⟩
  | succ n ih =>
    intro best r hb1 hb2 hb3 hb4
    obtain ⟨hr1, hr2, hr3, hr4⟩ := randomPlacement_bounds g tw th r h1 h2
    simp only [Generator.weightedLoop]
    split_ifs with hscore
    · cases currentDist with
      | none => exact ih _ _ hr1 hr2 hr3 hr4
      | some cd =>
        dsimp only
        split_ifs with hbreak
        · exact ⟨hr1, hr2, hr3, hr4⟩
        · exact ih _ _ hr1 hr2 hr3 hr4
    · exact ih _ _ hb1 hb2 hb3 hb4

theorem positionWeighted_bounds (g : Generator) (tw th : ℤ) (r : RNG)
    (h1 : tw ≤ g.width) (h2 : th ≤ g.height) :
    0 ≤ (g.positionWeighted tw th r).1.1 ∧
      (g.positionWeighted tw th r).1.1 ≤ g.width - tw ∧
      0 ≤ (g.positionWeighted tw th r).1.2 ∧
      (g.positionWeighted tw th r).1.2 ≤ g.height - th := by
  have hwx : (0 : ℤ) ≤ g.width - tw := sub_nonneg.mpr h1
  have hwy : (0 : ℤ) ≤ g.height - th := sub_nonneg.mpr h2
  have hcx := clampInt_mem (v := jsRound ((g.width : ℚ) / 2) - ⌊(tw : ℚ) / 2⌋) hwx
  have hcy := clampInt_mem (v := jsRound ((g.height : ℚ) / 2) - ⌊(th : ℚ) / 2⌋) hwy
  simp only [Generator.positionWeighted]
  cases hcom : g.centerOfMass with
  | none =>
    exact weightedLoop_bounds g tw th _ _ _ h1 h2 24 _ r hcx.1 hcx.2 hcy.1 hcy.2
  | some c =>
    dsimp only
    have hmx := clampInt_mem
      (v := jsRound ((g.width : ℚ) / 2 * 2 - c.1) - ⌊(tw : ℚ) / 2⌋) hwx
    have hmy := clampInt_mem
      (v := jsRound ((g.height : ℚ) / 2 * 2 - c.2) - ⌊(th : ℚ) / 2⌋) hwy
    split_ifs with hms
    · exact weightedLoop_bounds g tw th _ _ _ h1 h2 24 _ r hmx.1 hmx.2 hmy.1 hmy.2
    · exact weightedLoop_bounds g tw th _ _ _ h1 h2 24 _ r hcx.1 hcx.2 hcy.1 hcy.2

theorem diskAttempts_bounds (g : Generator) (tw th : ℤ) (mx my : ℚ) :
    ∀ (n : ℕ) (r : RNG) (pt : ℤ × ℤ) (r' : RNG),
      g.diskAttempts tw th mx my n r = (some pt, r') →
      0 ≤ pt.1 ∧ pt.1 ≤ g.width - tw ∧ 0 ≤ pt.2 ∧ pt.2 ≤ g.height - th := by
  intro n
  induction n with
  | zero =>
    intro r pt r' h
    simp [Generator.diskAttempts] at h
  | succ n ih =>
    intro r pt r' h
    simp only [Generator.diskAttempts] at h
    split_ifs at h with hc
    · have hfst := congrArg Prod.fst h
      obtain rfl := Option.some_inj.mp hfst
      exact hc
    · exact ih _ _ _ h

theorem sampleCenteredDisk_bounds (g : Generator) (tw th : ℤ) (fraction : ℚ)
    (r : RNG) (h1 : tw ≤ g.width) (h2 : th ≤ g.height) :
    0 ≤ (g.sampleCenteredDisk tw th fraction r).1.1 ∧
      (g.sampleCenteredDisk tw th fraction r).1.1 ≤ g.width - tw ∧
      0 ≤ (g.sampleCenteredDisk tw th fraction r).1.2 ∧
      (g.sampleCenteredDisk tw th fraction r).1.2 ≤ g.height - th := by
  have hwx : (0 : ℤ) ≤ g.width - tw := sub_nonneg.mpr h1
  have hwy : (0 : ℤ) ≤ g.height - th := sub_nonneg.mpr h2
  have hfx := clampInt_mem (v := jsRound ((g.width : ℚ) / 2 - (tw : ℚ) / 2)) hwx
  have hfy := clampInt_mem (v := jsRound ((g.height : ℚ) / 2 - (th : ℚ) / 2)) hwy
  simp only [Generator.sampleCenteredDisk]
  split_ifs with hzero
  · exact ⟨hfx.1, hfx.2, hfy.1, hfy.2⟩
  · cases hda : g.diskAttempts tw th
        (max 0 (min (min ((g.width : ℚ) / 2) ((g.width : ℚ) * fraction / 2))
          ((g.width : ℚ) / 2 - (tw : ℚ) / 2)))
        (max 0 (min (min ((g.height : ℚ) / 2) ((g.height : ℚ) * fraction / 2))
          ((g.height : ℚ) / 2 - (th : ℚ) / 2))) 16 r with
    | mk o r' =>
      cases o with
      | some pt =>
        dsimp only
        exact diskAttempts_bounds g tw th _ _ 16 r pt r' hda
      | none =>
        dsimp only
        exact ⟨hfx.1, hfx.2, hfy.1, hfy.2⟩

theorem positionCenter_bounds (g : Generator) (tw th : ℤ) (r : RNG)
    (h1 : tw ≤ g.width) (h2 : th ≤ g.height) :
    0 ≤ (g.positionCenter tw th r).1.1 ∧
      (g.positionCenter tw th r).1.1 ≤ g.width - tw ∧
      0 ≤ (g.positionCenter tw th r).1.2 ∧
      (g.positionCenter tw th r).1.2 ≤ g.height - th := by
  simp only [Generator.positionCenter]
  split_ifs with ha hb
  · exact sampleCenteredDisk_bounds g tw th _ _ h1 h2
  · exact sampleCenteredDisk_bounds g tw th _ _ h1 h2
  · exact randomPlacement_bounds g tw th _ h1 h2

theorem positionIslands_bounds (g : Generator) (tw th : ℤ) (r : RNG)
    (h1 : tw ≤ g.width) (h2 : th ≤ g.height) :
    0 ≤ (g.positionIslands tw th r).1.1 ∧
      (g.positionIslands tw th r).1.1 ≤ g.width - tw ∧
      0 ≤ (g.positionIslands tw th r).1.2 ∧
      (g.positionIslands tw th r).1.2 ≤ g.height - th := by
  have hwx : (0 : ℤ) ≤ g.width - tw := sub_nonneg.mpr h1
  have hwy : (0 : ℤ) ≤ g.height - th := sub_nonneg.mpr h2
  simp only [Generator.positionIslands]
  split_ifs with hempty
  · exact positionCenter_bounds g tw th r h1 h2
  · exact ⟨(clampInt_mem hwx).1, (clampInt_mem hwx).2,
      (clampInt_mem hwy).1, (clampInt_mem hwy).2⟩

theorem dualAttempts_bounds (g : Generator) (tw th cx cy : ℤ)
    (sx sy : ℚ) :
    ∀ (n : ℕ) (r : RNG) (pt : ℤ × ℤ) (r' : RNG),
      g.dualAttempts tw th cx cy sx sy n r = (some pt, r') →
      0 ≤ pt.1 ∧ pt.1 ≤ g.width - tw ∧ 0 ≤ pt.2 ∧ pt.2 ≤ g.height - th := by
  intro n
  induction n with
  | zero =>
    intro r pt r' h
    simp [Generator.dualAttempts] at h
  | succ n ih =>
    intro r pt r' h
    simp only [Generator.dualAttempts] at h
    split_ifs at h with hc
    · have hfst := congrArg Prod.fst h
      obtain rfl := Option.some_inj.mp hfst
      exact hc
    · exact ih _ _ _ h

theorem positionDualContinents_bounds (g : Generator) (tw th : ℤ) (r : RNG)
    (h1 : tw ≤ g.width) (h2 : th ≤ g.height) :
    0 ≤ (g.positionDualContinents tw th r).1.1 ∧
      (g.positionDualContinents tw th r).1.1 ≤ g.width - tw ∧
      0 ≤ (g.positionDualContinents tw th r).1.2 ∧
      (g.positionDualContinents tw th r).1.2 ≤ g.height - th := by
  simp only [Generator.positionDualContinents]
  split_ifs with hempty
  · exact positionCenter_bounds g tw th r h1 h2
  · cases hda : g.dualAttempts tw th
        (g.continentCenters.getD
          ((r.intn (g.continentCenters.length : ℤ)).1.toNat) (0, 0)).1
        (g.continentCenters.getD
          ((r.intn (g.continentCenters.length : ℤ)).1.toNat) (0, 0)).2
        ((g.width : ℚ) / 10) ((g.height : ℚ) / 6) 6
        (r.intn (g.continentCenters.length : ℤ)).2 with
    | mk o r' =>
      cases o with
      | some pt =>
        dsimp only
        exact dualAttempts_bounds g tw th _ _ _ _ 6 _ pt r' hda
      | none =>
        dsimp only
        exact positionCenter_bounds g tw th r' h1 h2

theorem ringAttempts_bounds (g : Generator) (tw th : ℤ) (radiusMax : ℚ)
    (h1 : tw ≤ g.width) (h2 : th ≤ g.height) :
    ∀ (n : ℕ) (r : RNG) (pt : ℤ × ℤ) (r' : RNG),
      g.ringAttempts tw th radiusMax n r = (some pt, r') →
      0 ≤ pt.1 ∧ pt.1 ≤ g.width - tw ∧ 0 ≤ pt.2 ∧ pt.2 ≤ g.height - th := by
  have hwx : (0 : ℤ) ≤ g.width - tw := sub_nonneg.mpr h1
  have hwy : (0 : ℤ) ≤ g.height - th := sub_nonneg.mpr h2
  intro n
  induction n with
  | zero =>
    intro r pt r' h
    simp [Generator.ringAttempts] at h
  | succ n ih =>
    intro r pt r' h
    simp only [Generator.ringAttempts] at h
    split_ifs at h with hc1 hc2
    · exact ih _ _ _ h
    · exact ih _ _ _ h
    · have hfst := congrArg Prod.fst h
      obtain rfl := Option.some_inj.mp hfst
      exact ⟨(clampInt_mem hwx).1, (clampInt_mem hwx).2,
        (clampInt_mem hwy).1, (clampInt_mem hwy).2⟩

theorem positionRing_bounds (g : Generator) (tw th : ℤ) (r : RNG)
    (h1 : tw ≤ g.width) (h2 : th ≤ g.height) :
    0 ≤ (g.positionRing tw th r).1.1 ∧
      (g.positionRing tw th r).1.1 ≤ g.width - tw ∧
      0 ≤ (g.positionRing tw th r).1.2 ∧
      (g.positionRing tw th r).1.2 ≤ g.height - th := by
  have hwx : (0 : ℤ) ≤ g.width - tw := sub_nonneg.mpr h1
  have hwy : (0 : ℤ) ≤ g.height - th := sub_nonneg.mpr h2
  simp only [Generator.positionRing]
  cases hra : g.ringAttempts tw th (min (g.width : ℚ) (g.height : ℚ) / 2) 12 r with
  | mk o r' =>
    cases o with
    | some pt =>
      dsimp only
      exact ringAttempts_bounds g tw th _ h1 h2 12 r pt r' hra
    | none =>
      dsimp only
      split_ifs with hspan
      · exact ⟨(clampInt_mem hwx).1, (clampInt_mem hwx).2,
          (clampInt_mem hwy).1, (clampInt_mem hwy).2⟩
      · exact randomPlacement_bounds g tw th r' h1 h2

/-- **C4**: for every mode and every tile size with `tileWidth < width` and
`tileHeight < height`, the point returned by `positionForTile` satisfies
`0 ≤ x ≤ width − tileWidth` and `0 ≤ y ≤ height − tileHeight`; when the tile
cannot fit (`tileWidth ≥ width` or `tileHeight ≥ height`), the returned
placement is the degenerate `(0,0)`. -/
theorem c4_placement_bounds (g : Generator) (tw th : ℤ) (r : RNG)
    (h1 : tw < g.width) (h2 : th < g.height) :
    (0 ≤ (g.positionForTile tw th r).1.1 ∧
      (g.positionForTile tw th r).1.1 ≤ g.width - tw ∧
      0 ≤ (g.positionForTile tw th r).1.2 ∧
      (g.positionForTile tw th r).1.2 ≤ g.height - th) ∧
    ∀ (tw' th' : ℤ) (r' : RNG), g.width ≤ tw' ∨ g.height ≤ th' →
      g.positionForTile tw' th' r' = ((0, 0), r') := by
  constructor
  · unfold Generator.positionForTile
    rw [if_neg (by push_neg; exact ⟨h1, h2⟩)]
    cases g.mode with
    | center => exact positionCenter_bounds g tw th r (le_of_lt h1) (le_of_lt h2)
    | weighted => exact positionWeighted_bounds g tw th r (le_of_lt h1) (le_of_lt h2)
    | islands => exact positionIslands_bounds g tw th r (le_of_lt h1) (le_of_lt h2)
    | dualContinents =>
      exact positionDualContinents_bounds g tw th r (le_of_lt h1) (le_of_lt h2)
    | ring => exact positionRing_bounds g tw th r (le_of_lt h1) (le_of_lt h2)
  · intro tw' th' r' h
    exact positionForTile_degenerate g tw' th' r' h

/-- **C9**: whenever `tileWidth ≥ width` or `tileHeight ≥ height` — including
the exactly-fitting case `tileWidth = width` — `positionForTile` returns
`(0,0)` and hands back the RNG state unchanged (no random draws consumed). -/
theorem c9_degenerate_no_draws (g : Generator) (tw th : ℤ) (r : RNG)
    (h : g.width ≤ tw ∨ g.height ≤ th) :
    g.positionForTile tw th r = ((0, 0), r) :=
  positionForTile_degenerate g tw th r h

/-- A concrete generator used by witnesses. -/
def gWitness : Generator :=
  ⟨4, 4, .weighted, 10, 1/10, 4/5, 4, 1/4, [], [], [], 0, 0, 0⟩

theorem c9_degenerate_no_draws_witness :
    (gWitness.width ≤ 4 ∨ gWitness.height ≤ 9) ∧
      gWitness.positionForTile 4 9 (RNG.init 7) = ((0, 0), RNG.init 7) :=
  ⟨Or.inl (by norm_num [gWitness]),
    c9_degenerate_no_draws gWitness 4 9 (RNG.init 7)
      (Or.inl (by norm_num [gWitness]))⟩

theorem c4_placement_bounds_witness :
    ((1 : ℤ) < gWitness.width ∧ (2 : ℤ) < gWitness.height) ∧
      ((0 ≤ (gWitness.positionForTile 1 2 (RNG.init 7)).1.1 ∧
        (gWitness.positionForTile 1 2 (RNG.init 7)).1.1 ≤ gWitness.width - 1 ∧
        0 ≤ (gWitness.positionForTile 1 2 (RNG.init 7)).1.2 ∧
        (gWitness.positionForTile 1 2 (RNG.init 7)).1.2 ≤ gWitness.height - 2) ∧
      ∀ (tw' th' : ℤ) (r' : RNG), gWitness.width ≤ tw' ∨ gWitness.height ≤ th' →
        gWitness.positionForTile tw' th' r' = ((0, 0), r')) :=
  ⟨⟨by norm_num [gWitness], by norm_num [gWitness]⟩,
    c4_placement_bounds gWitness 1 2 (RNG.init 7)
      (by norm_num [gWitness]) (by norm_num [gWitness])⟩

/-! ### Coverage accumulation (`placeTiles`, source lines 925–989)

The coverage grid is a `Uint16Array` (source line 674), so every increment is
taken modulo `2^16`. -/

/-- One `coverage[idx] += 1` on the 16-bit grid. -/
def bumpCell (cov : ℤ → ℕ) (idx : ℤ) : ℤ → ℕ :=
  fun j => if j = idx then (cov idx + 1) % 65536 else cov j

/-- The inner `xx` loop of the plain stamp (source lines 948–951). -/
def stampRow (width y : ℤ) : ℤ → ℕ → (ℤ → ℕ) → (ℤ → ℕ)
  | _, 0, cov => cov
  | x, n + 1, cov => stampRow width y (x + 1) n (bumpCell cov (y * width + x))

/-- The `yy` loop of the plain stamp (source lines 946–952). -/
def stampRect (width x : ℤ) (w : ℕ) : ℤ → ℕ → (ℤ → ℕ) → (ℤ → ℕ)
  | _, 0, cov => cov
  | y, n + 1, cov => stampRect width x w (y + 1) n (stampRow width y x w cov)

/-- One cell of the polish stamp (source lines 967–984): interior cells are
always incremented; border-band cells only when the squared distance to the
axis-clamped nearest tile cell is ≤ 1. -/
def polishCell (width x y w h xx yy : ℤ) (cov : ℤ → ℕ) : ℤ → ℕ :=
  let innerRight := x + w
  let innerBottom := y + h
  let idx := yy * width + xx
  if x ≤ xx ∧ xx < innerRight ∧ y ≤ yy ∧ yy < innerBottom then bumpCell cov idx
  else
    let nearestX := if xx < x then x else if innerRight ≤ xx then innerRight - 1 else xx
    let nearestY := if yy < y then y else if innerBottom ≤ yy then innerBottom - 1 else yy
    let dx := xx - nearestX
    let dy := yy - nearestY
    if dx * dx + dy * dy ≤ 1 then bumpCell cov idx else cov

def polishRow (width x y w h yy : ℤ) : ℤ → ℕ → (ℤ → ℕ) → (ℤ → ℕ)
  | _, 0, cov => cov
  | xx, n + 1, cov =>
    polishRow width x y w h yy (xx + 1) n (polishCell width x y w h xx yy cov)

def polishRect (width x y w h : ℤ) (startX : ℤ) (cols : ℕ) :
    ℤ → ℕ → (ℤ → ℕ) → (ℤ → ℕ)
  | _, 0, cov => cov
  | yy, n + 1, cov =>
    polishRect width x y w h startX cols (yy + 1) n
      (polishRow width x y w h yy startX cols cov)

/-- The per-tile rasterization (source lines 945–985). -/
def stampTile (p : GenerationParams) (x y w h : ℤ) (cov : ℤ → ℕ) : ℤ → ℕ :=
  if p.polish = false then stampRect p.width x w.toNat y h.toNat cov
  else
    let startY := max 0 (y - 1)
    let endY := min p.height (y + h + 1)
    let startX := max 0 (x - 1)
    let endX := min p.width (x + w + 1)
    polishRect p.width x y w h startX (endX - startX).toNat startY
      (endY - startY).toNat cov

structure PlaceState where
  gen : Generator
  cov : ℤ → ℕ
  rng : RNG

/-- One placement unit of the `placeTiles` inner loop (source lines
935–985): optional rotation draw, fit guard, position, centroid update,
rasterize. -/
noncomputable def placeUnit (p : GenerationParams) (bw bh : ℤ)
    (st : PlaceState) : PlaceState :=
  let rot : (ℤ × ℤ) × RNG :=
    if p.rotate ∧ bw ≠ bh then
      let d := st.rng.intn 2
      (if d.1 = 0 then (bh, bw) else (bw, bh), d.2)
    else ((bw, bh), st.rng)
  let w := rot.1.1
  let h := rot.1.2
  let r1 := rot.2
  if w ≤ 0 ∨ h ≤ 0 ∨ p.width < w ∨ p.height < h then
    { st with rng := r1 }
  else
    let pos := st.gen.positionForTile w h r1
    { gen := st.gen.recordPlacement pos.1.1 pos.1.2 w h
      cov := stampTile p pos.1.1 pos.1.2 w h st.cov
      rng := pos.2 }

noncomputable def placeBatchUnits (p : GenerationParams) (bw bh : ℤ) :
    ℕ → PlaceState → PlaceState
  | 0, st => st
  | n + 1, st => placeBatchUnits p bw bh n (placeUnit p bw bh st)

/-- `placeTiles` (source lines 925–989); the second component is the
reported `totalPlacements`. -/
noncomputable def placeTiles (p : GenerationParams) (batches : List TileBatch)
    (st : PlaceState) : PlaceState × ℤ :=
  batches.foldl
    (fun acc b => (placeBatchUnits p b.w b.h b.count.toNat acc.1, acc.2 + b.count))
    (st, 0)

/-! ### Tone mapping (`coverageToColor` / `blendColor`, source lines
677–709 and 868–909) -/

structure RGBA where
  r : ℤ
  g : ℤ
  b : ℤ
  a : ℤ
deriving DecidableEq

/-- The fixed land color (source line 677). -/
def green : RGBA := ⟨34, 139, 34, 255⟩

/-- The fixed dense color (source line 678). -/
def brown : RGBA := ⟨139, 69, 19, 255⟩

/-- The water color (source lines 679–684): note `params.bgAlpha || 255`
falls back to 255 when the configured alpha is 0. -/
def waterColor (bgAlpha : ℤ) : RGBA :=
  ⟨22, 75, 135, clampInt (jsOr bgAlpha 255) 0 255⟩

/-- The channel clamp of `blendColor` (source lines 897–901): clamp to
[0,255], rounding only in the in-range case. -/
noncomputable def clamp255 (v : ℝ) : ℤ :=
  if v < 0 then 0 else if 255 < v then 255 else jsRound v

/-- `blendColor` (source lines 892–909); `alphaRaw || 1` guards a zero
blended alpha. -/
noncomputable def blendColor (c1 c2 : RGBA) (t : ℝ) : RGBA :=
  let alphaRaw : ℝ := (1 - t) * (c1.a : ℝ) + t * (c2.a : ℝ)
  let alpha : ℝ := if alphaRaw = 0 then 1 else alphaRaw
  ⟨clamp255 ((1 - t) * (c1.r : ℝ) + t * (c2.r : ℝ)),
    clamp255 ((1 - t) * (c1.g : ℝ) + t * (c2.g : ℝ)),
    clamp255 ((1 - t) * (c1.b : ℝ) + t * (c2.b : ℝ)),
    clamp255 alpha⟩

/-- `coverageToColor` (source lines 868–890); on `ℕ` coverage the source's
`coverage <= 0` test is `coverage = 0`. -/
noncomputable def coverageToColor (coverage : ℕ) (brownCap : ℤ)
    (logTone : Bool) (land dense : RGBA) : RGBA :=
  if coverage = 0 then ⟨0, 0, 0, 0⟩
  else if coverage = 1 then land
  else
    let cap : ℤ := max 1 brownCap
    let ratio : ℝ :=
      if logTone then Real.log (coverage : ℝ) / Real.log ((cap : ℝ) + 1)
      else ((coverage : ℝ) - 1) / (cap : ℝ)
    blendColor land dense (clampFloat ratio 0 1)

/-- The per-pixel branch of the render loop in `generateMap` (source lines
686–709): zero coverage renders water, otherwise `coverageToColor`. -/
noncomputable def renderPixel (cov : ℕ) (brownCap : ℤ) (logTone : Bool)
    (bgAlpha : ℤ) : RGBA :=
  if cov = 0 then waterColor bgAlpha
  else coverageToColor cov brownCap logTone green brown

/-- The full pixel pass over the coverage grid (row-major, index
`y*width + x`). -/
noncomputable def renderImage (p : GenerationParams) (cov : ℤ → ℕ) :
    List RGBA :=
  (List.range (p.height.toNat * p.width.toNat)).map fun i =>
    renderPixel (cov (i : ℤ)) p.brownCap p.logTone p.bgAlpha

/-! ### Tile specification parsing (source lines 721–800)

`parseInt`/`parseFloat` are JS builtins; they are modelled from their
standard behaviour on this code's inputs: trim, optional sign, longest
digit prefix (with an optional decimal part for `parseFloat`; exponent
notation does not occur in tile strings and is not modelled). -/

def jsParseInt (s : String) : Option ℤ :=
  let t := s.trim.data
  let core : List Char × Bool :=
    match t with
    | '-' :: rest => (rest, true)
    | '+' :: rest => (rest, false)
    | _ => (t, false)
  let ds := core.1.takeWhile Char.isDigit
  match (String.mk ds).toNat? with
  | none => none
  | some n => some (if core.2 then -(n : ℤ) else (n : ℤ))

def jsParseFloat (s : String) : Option ℚ :=
  let t := s.trim.data
  let core : List Char × Bool :=
    match t with
    | '-' :: rest => (rest, true)
    | '+' :: rest => (rest, false)
    | _ => (t, false)
  let intDs := core.1.takeWhile Char.isDigit
  let rest1 := core.1.drop intDs.length
  let fracDs : List Char :=
    match rest1 with
    | '.' :: rr => rr.takeWhile Char.isDigit
    | _ => []
  if intDs.isEmpty ∧ fracDs.isEmpty then none
  else
    let ip : ℕ := ((String.mk intDs).toNat?).getD 0
    let fp : ℕ := ((String.mk fracDs).toNat?).getD 0
    let mag : ℚ := (ip : ℚ) + (fp : ℚ) / 10 ^ fracDs.length
    some (if core.2 then -mag else mag)

/-- One comma-separated entry of `parseTileList` (source lines 739–762). -/
def parseTileEntry (lst : List TileSpec) (partRaw : String) :
    Except String (List TileSpec) :=
  let part := partRaw.trim
  if part = "" then .ok lst
  else
    let pieces := part.splitOn "*"
    let dims := (pieces.getD 0 "").splitOn "x"
    if dims.length ≠ 2 then .error ("invalid tile dimensions in " ++ part)
    else
      match jsParseInt ((dims.getD 0 "").trim), jsParseInt ((dims.getD 1 "").trim) with
      | some w, some h =>
        if w ≤ 0 ∨ h ≤ 0 then
          .error ("tile dimensions must be positive in " ++ part)
        else
          let countStr := pieces.getD 1 ""
          if countStr = "" then .ok (lst ++ [⟨w, h, 1⟩])
          else
            match jsParseFloat countStr.trim with
            | none => .error ("invalid tile count in " ++ part)
            | some cv => if cv ≤ 0 then .ok lst else .ok (lst ++ [⟨w, h, cv⟩])
      | _, _ => .error ("tile dimensions must be positive in " ++ part)

/-- `parseTileList` (source lines 728–767). -/
def parseTileList (input : String) : Except String (List TileSpec) :=
  let trimmed := input.trim
  if trimmed = "" then
    .ok [⟨2, 2, 400⟩, ⟨2, 1, 300⟩, ⟨1, 1, 100⟩]
  else
    match (trimmed.splitOn ",").foldl
kStep (.ok []) with
    | .error e => .error e
    | .ok result =>
      if result.length = 0 then .error "no valid tile definitions found"
      else .ok result
where
  kStep (acc : Except String (List TileSpec)) (p : String) :
      Except String (List TileSpec) :=
    match acc with
    | .error e => .error e
    | .ok lst => parseTileEntry lst p

/-- Add a legacy boost to the first matching entry (`specs.find` in source
lines 782–787). -/
def addToFirst : List TileSpec → ℤ → ℤ → ℚ → List TileSpec
  | [], _, _, _ => []
  | s :: rest, w, h, n =>
    if s.w = w ∧ s.h = h then { s with count := s.count + n } :: rest
    else s :: addToFirst rest w h n

/-- `applyLegacyTiles` (source lines 769–790). -/
def applyLegacyTiles (specs : List TileSpec) (n22 n21 n11 : ℚ) :
    List TileSpec :=
  [((2 : ℤ), (2 : ℤ), n22), (2, 1, n21), (1, 1, n11)].foldl
    (fun lst e =>
      if e.2.2 ≤ 0 then lst
      else if lst.any fun s => decide (s.w = e.1 ∧ s.h = e.2.1) then
        addToFirst lst e.1 e.2.1 e.2.2
      else lst ++ [⟨e.1, e.2.1, e.2.2⟩])
    specs

/-- `activateMultiplier` (source lines 792–800). -/
def activateMultiplier (specs : List TileSpec) (ka : ℚ) : List TileSpec :=
  if ka ≤ 0 then specs
  else if ka = 1 then specs
  else specs.map fun s => { s with count := s.count * ka }

/-- `finalizeSpecs` (source lines 721–726). -/
def finalizeSpecs (p : GenerationParams) : Except String (List TileBatch) :=
  match parseTileList p.tileString with
  | .error e => .error e
  | .ok specs0 =>
    .ok (finalizeTileBatches
      (activateMultiplier (applyLegacyTiles specs0 p.n22 p.n21 p.n11) p.ka)
      p.cap)

/-! ### `generateMap` (source lines 657–719)

The external PNG encoder (`pngjs`) is out of scope per the spec; the image
output is modelled as the raw RGBA pixel buffer handed to it.  The only
time dependence is the `Date.now()` fallback inside `seedFromString`, made
explicit as the `now` argument. -/

structure GenerationResult where
  pixels : List RGBA
  batches : ℕ
  totalPlacements : ℤ
  seedValue : ℕ

noncomputable def generateMap (p : GenerationParams) (now : ℕ) :
    Except String GenerationResult :=
  match finalizeSpecs p with
  | .error e => .error e
  | .ok specs =>
    if specs.length = 0 then .error "no tiles to place after cap adjustment"
    else
      let seedValue := seedFromString p.seed now
      let rng := RNG.init seedValue
      let gr := Generator.build p rng
      let st0 : PlaceState := { gen := gr.1, cov := fun _ => 0, rng := gr.2 }
      let res := placeTiles p specs st0
      .ok
        { pixels := renderImage p res.1.cov
          batches := specs.length
          totalPlacements := res.2
          seedValue := seedValue }

/-- **C1**: for every parameter set with a non-empty seed string, two
invocations of `generateMap` with identical parameters produce identical
output image data (the RGBA pixel buffer handed to the external PNG encoder)
and identical reported metadata (batch count, total placements, resolved seed
value): the result does not depend on the wall-clock time `now`, the only
non-deterministic input. -/
theorem c1_determinism (p : GenerationParams) (t1 t2 : ℕ) (h : p.seed ≠ "") :
    generateMap p t1 = generateMap p t2 := by
  have hs : seedFromString p.seed t1 = seedFromString p.seed t2 := by
    unfold seedFromString
    rw [if_neg h, if_neg h]
  simp only [generateMap, hs]

/-- A concrete parameter set used by witnesses. -/
def pWitness : GenerationParams :=
  ⟨4, 4, "", 1, 0, .weighted, 10, 1/10, 4/5, "t1", true, 8, 0, 4, 1/4,
    true, false, 0, 0, 0⟩

theorem c1_determinism_witness :
    pWitness.seed ≠ "" ∧ generateMap pWitness 3 = generateMap pWitness 5 :=
  ⟨by decide, c1_determinism pWitness 3 5 (by decide)⟩

/-- **C8 counterexample**: with the background-alpha parameter set to 0 (its
default), a zero-coverage pixel is rendered with alpha 255, not with the
configured background alpha — `params.bgAlpha || 255` falls back to 255. -/
theorem c8_counterexample :
    (renderPixel 0 8 true 0).a = 255 ∧ (renderPixel 0 8 true 0).a ≠ 0 := by
  constructor <;> norm_num [renderPixel, waterColor, jsOr, clampInt]

theorem clampFloat_ge_one {v : ℝ} (h : 1 ≤ v) : clampFloat v 0 1 = 1 := by
  unfold clampFloat
  rw [if_neg (not_lt.mpr (le_trans zero_le_one h))]
  rcases eq_or_lt_of_le h with heq | hlt
  · rw [if_neg (by rw [← heq]; exact lt_irrefl 1)]
    exact heq.symm
  · rw [if_pos hlt]

theorem blendColor_one : blendColor green brown 1 = brown := by
  simp only [blendColor, green, brown]
  norm_num [clamp255, jsRound]

/-- **C8 (amended)**: tone-mapping boundary cases.  Coverage 0 renders the
water color whose alpha is the configured background alpha when it is
non-zero and 255 when it is zero (`bgAlpha || 255`); coverage 1 renders
exactly the pure land color; and coverage ≥ `max(1, brownCap) + 1` clamps the
blend ratio to 1 and renders the pure dense color, under both logarithmic and
linear tone modes. -/
theorem c8_tone_boundaries (brownCap bgAlpha : ℤ) (cov : ℕ) (logTone : Bool)
    (h0 : 0 ≤ bgAlpha) (h255 : bgAlpha ≤ 255)
    (hcov : max 1 brownCap + 1 ≤ (cov : ℤ)) :
    renderPixel 0 brownCap logTone bgAlpha =
      ⟨22, 75, 135, if bgAlpha = 0 then 255 else bgAlpha⟩ ∧
      renderPixel 1 brownCap logTone bgAlpha = green ∧
      renderPixel cov brownCap logTone bgAlpha = brown := by
  refine ⟨?_, ?_, ?_⟩
  · have hrp : renderPixel 0 brownCap logTone bgAlpha = waterColor bgAlpha := by
      simp [renderPixel]
    rw [hrp]
    unfold waterColor
    congr 1
    by_cases hz : bgAlpha = 0
    · rw [if_pos hz, hz]
      norm_num [jsOr, clampInt]
    · rw [if_neg hz]
      unfold jsOr clampInt
      rw [if_neg hz, if_neg (not_lt.mpr h0), if_neg (not_lt.mpr h255)]
  · simp [renderPixel, coverageToColor]
  · have hcap1 : (1 : ℤ) ≤ max 1 brownCap := le_max_left _ _
    have hcov2 : (2 : ℤ) ≤ (cov : ℤ) := by omega
    have hcovne0 : cov ≠ 0 := by
      intro hc
      rw [hc] at hcov2
      norm_num at hcov2
    have hcovne1 : cov ≠ 1 := by
      intro hc
      rw [hc] at hcov2
      norm_num at hcov2
    have hcapR : (1 : ℝ) ≤ ((max 1 brownCap : ℤ) : ℝ) := by exact_mod_cast hcap1
    have hcovR : ((max 1 brownCap : ℤ) : ℝ) + 1 ≤ (cov : ℝ) := by
      have : ((max 1 brownCap + 1 : ℤ) : ℝ) ≤ ((cov : ℤ) : ℝ) := by
        exact_mod_cast hcov
      push_cast at this
      push_cast
      linarith
    have hratio : (1 : ℝ) ≤
        (if logTone then
          Real.log (cov : ℝ) / Real.log (((max 1 brownCap : ℤ) : ℝ) + 1)
        else ((cov : ℝ) - 1) / ((max 1 brownCap : ℤ) : ℝ)) := by
      cases logTone with
      | false =>
        simp only [Bool.false_eq_true, if_false]
        rw [le_div_iff₀ (by linarith)]
        linarith
      | true =>
        simp only [if_true]
        have hlogpos : 0 < Real.log (((max 1 brownCap : ℤ) : ℝ) + 1) :=
          Real.log_pos (by linarith)
        rw [le_div_iff₀ hlogpos]
        rw [one_mul]
        apply Real.log_le_log (by linarith)
        linarith
    simp only [renderPixel, if_neg hcovne0, coverageToColor, if_neg hcovne1]
    rw [clampFloat_ge_one hratio, blendColor_one]

theorem c8_tone_boundaries_witness :
    ((0 : ℤ) ≤ 7 ∧ (7 : ℤ) ≤ 255 ∧ max 1 (8 : ℤ) + 1 ≤ ((10 : ℕ) : ℤ)) ∧
      (renderPixel 0 8 true 7 = ⟨22, 75, 135, if (7 : ℤ) = 0 then 255 else 7⟩ ∧
        renderPixel 1 8 true 7 = green ∧
        renderPixel 10 8 true 7 = brown) :=
  ⟨⟨by norm_num, by norm_num, by norm_num⟩,
    c8_tone_boundaries 8 7 10 true (by norm_num) (by norm_num) (by norm_num)⟩

/-! #### C10: 16-bit coverage wraparound -/

/-- Parameters for the wraparound scenario: a 1×1 canvas, no polish. -/
def P10 : GenerationParams :=
  ⟨1, 1, "1x1*65536", 1, 0, .center, 10, 1/10, 4/5, "wrap", true, 8, 0, 4,
    1/4, true, false, 0, 0, 0⟩

/-- The generator for the 1×1 canvas. -/
def g10 : Generator := ⟨1, 1, .center, 10, 1/10, 4/5, 4, 1/4, [], [], [], 0, 0, 0⟩

theorem recordPlacement_dims (g : Generator) (x y tw th : ℤ) :
    (g.recordPlacement x y tw th).width = g.width ∧
    (g.recordPlacement x y tw th).height = g.height := by
  simp only [Generator.recordPlacement]
  split_ifs <;> exact ⟨rfl, rfl⟩

theorem placeUnit_wrap (st : PlaceState) (hw : st.gen.width = 1)
    (hh : st.gen.height = 1) :
    (placeUnit P10 1 1 st).cov = bumpCell st.cov 0 ∧
      (placeUnit P10 1 1 st).gen.width = 1 ∧
      (placeUnit P10 1 1 st).gen.height = 1 := by
  have hpos : st.gen.positionForTile 1 1 st.rng = ((0, 0), st.rng) :=
    positionForTile_degenerate _ _ _ _ (Or.inl (le_of_eq hw))
  simp only [placeUnit, P10, ne_eq, not_true_eq_false, and_false, if_false]
  rw [if_neg (by norm_num)]
  rw [hpos]
  refine ⟨?_, (recordPlacement_dims _ _ _ _ _).1.trans hw,
    (recordPlacement_dims _ _ _ _ _).2.trans hh⟩
  show stampTile P10 0 0 1 1 st.cov = bumpCell st.cov 0
  simp only [stampTile, P10, if_pos rfl]
  show stampRect 1 0 (1 : ℤ).toNat 0 (1 : ℤ).toNat st.cov = bumpCell st.cov 0
  norm_num [stampRect, stampRow]

theorem placeBatchUnits_wrap :
    ∀ (n : ℕ) (st : PlaceState), st.gen.width = 1 → st.gen.height = 1 →
      st.cov 0 < 65536 →
      (placeBatchUnits P10 1 1 n st).cov 0 = (st.cov 0 + n) % 65536 := by
  intro n
  induction n with
  | zero =>
    intro st hw hh hlt
    simp only [placeBatchUnits]
    omega
  | succ n ih =>
    intro st hw hh hlt
    obtain ⟨hcov, hw', hh'⟩ := placeUnit_wrap st hw hh
    simp only [placeBatchUnits]
    rw [ih _ hw' hh' (by rw [hcov]; simp [bumpCell]; omega)]
    rw [hcov]
    simp only [bumpCell]
    norm_num
    omega

/-- **C10**: the coverage grid is a 16-bit unsigned array, so each cell count
is accumulated modulo 65536: on a 1×1 canvas with 65536 overlapping 1×1
placements (more than 65535 on one cell), the cell's count wraps to 0 and the
pixel is rendered as water despite being covered; one placement fewer leaves
the count at 65535. -/
theorem c10_coverage_wraparound :
    (placeTiles P10 [⟨1, 1, 65536⟩] ⟨g10, fun _ => 0, RNG.init 1⟩).1.cov 0 = 0 ∧
      (placeTiles P10 [⟨1, 1, 65536⟩] ⟨g10, fun _ => 0, RNG.init 1⟩).2 = 65536 ∧
      renderPixel
        ((placeTiles P10 [⟨1, 1, 65536⟩] ⟨g10, fun _ => 0, RNG.init 1⟩).1.cov 0)
        P10.brownCap P10.logTone P10.bgAlpha = waterColor P10.bgAlpha ∧
      (placeBatchUnits P10 1 1 65535 ⟨g10, fun _ => 0, RNG.init 1⟩).cov 0 =
        65535 := by
  have hb : (placeTiles P10 [⟨1, 1, 65536⟩] ⟨g10, fun _ => 0, RNG.init 1⟩) =
      (placeBatchUnits P10 1 1 ((65536 : ℤ)).toNat ⟨g10, fun _ => 0, RNG.init 1⟩,
        0 + 65536) := by
    simp [placeTiles]
  have h1 : (placeBatchUnits P10 1 1 65536
      ⟨g10, fun _ => 0, RNG.init 1⟩).cov 0 = (0 + 65536) % 65536 :=
    placeBatchUnits_wrap 65536 _ rfl rfl (by norm_num)
  have h2 : (placeBatchUnits P10 1 1 65535
      ⟨g10, fun _ => 0, RNG.init 1⟩).cov 0 = (0 + 65535) % 65536 :=
    placeBatchUnits_wrap 65535 _ rfl rfl (by norm_num)
  rw [hb]
  have ht : ((65536 : ℤ)).toNat = 65536 := rfl
  rw [ht]
  refine ⟨by rw [h1], by norm_num, ?_, by rw [h2]⟩
  rw [h1]
  norm_num [renderPixel]

end MapGen
